import Mathlib

/-!
# Verification of the dryfinder duplicate-block detector

Shallow embedding of `src/main.cpp` (repository `dryfinder`).  C++ strings
are modelled as `List Char` (byte-for-byte for the ASCII inputs the tool
processes); `std::vector` as `List`; the `unordered_map`s as association
lists kept in insertion order (one fixed representative of the
implementation-defined iteration order; iteration-order independence is
itself proved where a claim requires it).  Machine integers (`size_t`) are
modelled as `Nat`: all quantities involved (line counts, offsets) are far
below `2^64` and every arithmetic operation in the translated code is also
monotone, so no wrap-around can occur in the source.

The two `while` loops of `build_maximal_block` are modelled with explicit
fuel; the fuel bounds used by the definitions are proved sufficient
(claim C10), so the definitions compute exactly the C++ fixpoints.
-/

namespace Dryfinder

/-- A C++ `std::string`, byte for byte. -/
abbrev Str := List Char

/-- Function `strip_indent` (main.cpp:63): drop leading spaces and tabs. -/
def strip_indent (s : Str) : Str :=
  s.dropWhile (fun c => c == ' ' || c == '\t')

/-- Structure `FileData` (main.cpp:237): a loaded file. -/
structure FileData where
  path : Str
  lines : List Str
deriving DecidableEq, Repr, Inhabited

/-- Structure `Hit` (main.cpp:242): one occurrence of a block, 1-based inclusive lines. -/
structure Hit where
  path : Str
  start_line : Nat
  end_line : Nat
deriving DecidableEq, Repr, Inhabited

/-- Structure `DuplicateBlock` (main.cpp:248). -/
structure DuplicateBlock where
  lines : List Str
  hits : List Hit
deriving DecidableEq, Repr, Inhabited

/-- Structure `Occurrence` (main.cpp:294): 0-based window start in a file. -/
structure Occurrence where
  file_index : Nat
  start : Nat
deriving DecidableEq, Repr, Inhabited

/-- Line comparison under the active mode (`equal_line` lambda, main.cpp:306). -/
def equal_line (ignore_indent : Bool) (a b : Str) : Bool :=
  if ignore_indent then strip_indent a == strip_indent b else a == b

/-- Normalization applied per line when building keys (main.cpp:288). -/
def norm_line (ignore_indent : Bool) (s : Str) : Str :=
  if ignore_indent then strip_indent s else s

/-- Join lines with a single `'\n'` separator (the `ostringstream` loop of
`join_lines_norm`, main.cpp:284-292, already specialised to a whole list). -/
def joinNL : List Str → Str
  | [] => []
  | [a] => a
  | a :: b :: rest => a ++ '\n' :: joinNL (b :: rest)

/-- Function `join_lines_norm` (main.cpp:284) on a whole list of lines. -/
def join_lines_norm (l : List Str) (ignore_indent : Bool) : Str :=
  joinNL (l.map (norm_line ignore_indent))

/-- Access `files[i]` with the C++ access modelled totally (all pipeline accesses
are proved in-bounds where it matters). -/
def fileAt (files : List FileData) (i : Nat) : FileData :=
  files.getD i default

/-- Access `files[i].lines[j]`. -/
def lineAt (files : List FileData) (i j : Nat) : Str :=
  (fileAt files i).lines.getD j []

/-- Access `occs[0]` (the pipeline only ever extends groups of ≥ 2 occurrences). -/
def refOcc (occs : List Occurrence) : Occurrence :=
  occs.headD default

/-- Stop condition of the backward-extension loop (main.cpp:311-326): some
occurrence is at file start, or some occurrence's preceding line differs
from the first occurrence's preceding line.  (The C++ loop compares
occurrences `1..` against `occs[0]`; comparing `occs[0]` against itself is
vacuous, so `all` over the whole list is the same condition.) -/
def stopB (files : List FileData) (ig : Bool) (occs : List Occurrence) : Bool :=
  occs.any (fun oc => oc.start == 0) ||
  !(occs.all (fun oc =>
      equal_line ig (lineAt files oc.file_index (oc.start - 1))
        (lineAt files (refOcc occs).file_index ((refOcc occs).start - 1))))

/-- One backward step: every occurrence's start is decremented (main.cpp:324). -/
def stepB (occs : List Occurrence) : List Occurrence :=
  occs.map (fun oc => { oc with start := oc.start - 1 })

/-- The backward-extension `while` loop, with explicit fuel. -/
def extendBackward (files : List FileData) (ig : Bool) :
    Nat → List Occurrence → List Occurrence
  | 0, occs => occs
  | fuel + 1, occs =>
    if stopB files ig occs then occs
    else extendBackward files ig fuel (stepB occs)

/-- Stop condition of the forward-extension loop (main.cpp:330-345): the
first occurrence's next line is past its file end, or some occurrence's
next line is past its file end or differs from the first occurrence's next
line. -/
def stopF (files : List FileData) (ig : Bool) (occs : List Occurrence) (len : Nat) : Bool :=
  ((fileAt files (refOcc occs).file_index).lines.length ≤ (refOcc occs).start + len) ||
  !(occs.all (fun oc =>
      decide (oc.start + len < (fileAt files oc.file_index).lines.length) &&
      equal_line ig (lineAt files oc.file_index (oc.start + len))
        (lineAt files (refOcc occs).file_index ((refOcc occs).start + len))))

/-- The forward-extension `while` loop, with explicit fuel. -/
def extendForward (files : List FileData) (ig : Bool) (occs : List Occurrence) :
    Nat → Nat → Nat
  | 0, len => len
  | fuel + 1, len =>
    if stopF files ig occs len then len
    else extendForward files ig occs fuel (len + 1)

/-- Function `build_maximal_block` (main.cpp:299-362).  The fuel values
`(refOcc occs).start + 1` and `|file₀.lines| + 1` are proved sufficient
(claim C10): with them the two loops compute the exact C++ fixpoints. -/
def build_maximal_block (files : List FileData) (occs_in : List Occurrence)
    (seed_len : Nat) (ig : Bool) : DuplicateBlock :=
  let occs := extendBackward files ig ((refOcc occs_in).start + 1) occs_in
  let len := extendForward files ig occs
    ((fileAt files (refOcc occs).file_index).lines.length + 1) seed_len
  { lines := ((fileAt files (refOcc occs).file_index).lines.drop (refOcc occs).start).take len
    hits := occs.map (fun oc =>
      { path := (fileAt files oc.file_index).path
        start_line := oc.start + 1
        end_line := oc.start + len }) }

/-- The backward-extended occurrence list inside `build_maximal_block`
(its first `let`). -/
def extOccs (files : List FileData) (ig : Bool) (occs_in : List Occurrence) :
    List Occurrence :=
  extendBackward files ig ((refOcc occs_in).start + 1) occs_in

/-- The final block length inside `build_maximal_block` (its second `let`). -/
def extLen (files : List FileData) (ig : Bool) (occs_in : List Occurrence)
    (seed_len : Nat) : Nat :=
  extendForward files ig (extOccs files ig occs_in)
    ((fileAt files (refOcc (extOccs files ig occs_in)).file_index).lines.length + 1) seed_len

/-- The seed windows contributed by file `i` (inner loop of
main.cpp:381-388): every window of `min_lines` consecutive lines, keyed by
its (optionally indentation-stripped) joined content. -/
def fileWindows (files : List FileData) (min_lines : Nat) (ig : Bool) (i : Nat) :
    List (Str × Occurrence) :=
  if (fileAt files i).lines.length < min_lines then []
  else
    (List.range ((fileAt files i).lines.length - min_lines + 1)).map (fun s =>
      (join_lines_norm (((fileAt files i).lines.drop s).take min_lines) ig,
       { file_index := i, start := s }))

/-- All seed windows, in file order then offset order (main.cpp:381-388). -/
def allWindows (files : List FileData) (min_lines : Nat) (ig : Bool) :
    List (Str × Occurrence) :=
  (List.range files.length).flatMap (fileWindows files min_lines ig)

/-- Update `seeds[key].push_back(occ)` on the association-list model of the
`unordered_map` (new keys are appended at the end, giving insertion order). -/
def addOcc : List (Str × List Occurrence) → Str → Occurrence → List (Str × List Occurrence)
  | [], k, oc => [(k, [oc])]
  | (k', os) :: rest, k, oc =>
    if k' == k then (k', os ++ [oc]) :: rest
    else (k', os) :: addOcc rest k oc

/-- The seed index (main.cpp:380-388): window key → occurrence bucket in
scan order. -/
def seedsOf (files : List FileData) (min_lines : Nat) (ig : Bool) :
    List (Str × List Occurrence) :=
  (allWindows files min_lines ig).foldl (fun m p => addOcc m p.1 p.2) []

/-- Decimal digit character, as produced by `operator<<` on an integer. -/
def digitChar (d : Nat) : Char :=
  Char.ofNat (48 + d)

/-- Decimal digits accumulator with explicit fuel (the fuel `n + 1` used
by `decRepr` is proved sufficient in `decReprAux_congr`). -/
def decReprAux : Nat → Nat → Str
  | 0, _ => []
  | fuel + 1, n =>
    if n < 10 then [digitChar n]
    else decReprAux fuel (n / 10) ++ [digitChar (n % 10)]

/-- Decimal representation of a `size_t` as printed by
`std::ostringstream` (most significant digit first). -/
def decRepr (n : Nat) : Str :=
  decReprAux (n + 1) n

/-- Evaluate a digit string back to a number (proof tool for injectivity
of `decRepr`). -/
def decVal (s : Str) : Nat :=
  s.foldl (fun a c => 10 * a + (c.toNat - 48)) 0

/-- The hit identity key `path\nstart\nend` (main.cpp:413-414). -/
def hitKey (h : Hit) : Str :=
  h.path ++ '\n' :: decRepr h.start_line ++ '\n' :: decRepr h.end_line

/-- Structure `Agg` (main.cpp:396-400): one content-keyed aggregate. -/
structure Agg where
  lines : List Str
  hit_keys : List Str
  hits : List Hit
deriving DecidableEq, Repr, Inhabited

/-- Statement `if (agg.hit_keys.insert(k).second) agg.hits.push_back(h)`
(main.cpp:412-419). -/
def insertHit (a : Agg) (h : Hit) : Agg :=
  if hitKey h ∈ a.hit_keys then a
  else { a with hit_keys := a.hit_keys ++ [hitKey h], hits := a.hits ++ [h] }

/-- Invariant of the C++ `unordered_set hit_keys`: it holds exactly the
keys of the stored hits. -/
def KeysInv (a : Agg) : Prop :=
  ∀ k, k ∈ a.hit_keys ↔ ∃ h ∈ a.hits, hitKey h = k

/-- Merging one extended block into an aggregate: set the representative
lines if still empty (main.cpp:410), then dedupe-insert every hit. -/
def mergeBlock (a : Agg) (b : DuplicateBlock) : Agg :=
  b.hits.foldl insertHit
    { a with lines := if a.lines.isEmpty then b.lines else a.lines }

/-- Update of `by_content[content_key]` on the association-list model of the
`unordered_map` (main.cpp:408-419). -/
def addAgg : List (Str × Agg) → Str → DuplicateBlock → List (Str × Agg)
  | [], ck, b => [(ck, mergeBlock { lines := [], hit_keys := [], hits := [] } b)]
  | (k, a) :: rest, ck, b =>
    if k == ck then (k, mergeBlock a b) :: rest
    else (k, a) :: addAgg rest ck b

/-- The aggregation loop over the seed index (main.cpp:404-421),
parameterised by the order in which the seed buckets are visited. -/
def processSeeds (files : List FileData) (min_lines : Nat) (ig : Bool)
    (seeds : List (Str × List Occurrence)) : List (Str × Agg) :=
  seeds.foldl (fun m p =>
    if p.2.length < 2 then m
    else
      let block := build_maximal_block files p.2 min_lines ig
      addAgg m (join_lines_norm block.lines ig) block) []

/-- Final collection (main.cpp:426-435): keep aggregates with ≥ 2 hits. -/
def collectBlocks (m : List (Str × Agg)) : List DuplicateBlock :=
  (m.filter (fun p => 2 ≤ p.2.hits.length)).map (fun p => ⟨p.2.lines, p.2.hits⟩)

/-- Function `find_repeated_blocks` (main.cpp:364-438) on already-loaded files. -/
def find_repeated_blocks (files : List FileData) (min_lines : Nat) (ig : Bool) :
    List DuplicateBlock :=
  collectBlocks (processSeeds files min_lines ig (seedsOf files min_lines ig))

/-- C++ `std::string operator<` = lexicographic byte comparison. -/
def strLt (a b : Str) : Bool :=
  decide (a < b)

/-- C++ `std::vector<std::string> operator<` = lexicographic. -/
def linesLt : List Str → List Str → Bool
  | [], [] => false
  | [], _ :: _ => true
  | _ :: _, [] => false
  | a :: as, b :: bs =>
    if strLt a b then true else if strLt b a then false else linesLt as bs

/-- The block comparator of `main` (main.cpp:546-552): line count
descending, then hit count descending, then first line, then full lines. -/
def blockLess (a b : DuplicateBlock) : Bool :=
  if a.lines.length ≠ b.lines.length then decide (b.lines.length < a.lines.length)
  else if a.hits.length ≠ b.hits.length then decide (b.hits.length < a.hits.length)
  else if a.lines ≠ [] ∧ b.lines ≠ [] ∧ a.lines.headD [] ≠ b.lines.headD [] then
    strLt (a.lines.headD []) (b.lines.headD [])
  else linesLt a.lines b.lines

/-- The hit comparator of `print_yaml` (main.cpp:460-464): path, then
start line, then end line. -/
def hitLess (a b : Hit) : Bool :=
  if a.path ≠ b.path then strLt a.path b.path
  else if a.start_line ≠ b.start_line then decide (a.start_line < b.start_line)
  else decide (a.end_line < b.end_line)

/-- Relation "`a` may precede `b`" for blocks: the non-strict closure of
`blockLess`, the postcondition relation of `std::sort`. -/
def blockBefore (a b : DuplicateBlock) : Prop :=
  blockLess b a = false

instance : DecidableRel blockBefore := fun a b =>
  inferInstanceAs (Decidable (blockLess b a = false))

/-- Relation "`a` may precede `b`" for hits. -/
def hitBefore (a b : Hit) : Prop :=
  hitLess b a = false

instance : DecidableRel hitBefore := fun a b =>
  inferInstanceAs (Decidable (hitLess b a = false))

/-- Sort the hits of one block (main.cpp:458-464).  `std::sort` produces a
sorted permutation; we model it by insertion sort. -/
def sortHits (b : DuplicateBlock) : DuplicateBlock :=
  { b with hits := List.insertionSort hitBefore b.hits }

/-- The core pipeline of the spec's §6 `detect_duplicates`: duplicate
discovery (main.cpp:364-438), final block sort (main.cpp:546-552) and
per-block hit sort (main.cpp:458-464). -/
def detect_duplicates (files : List FileData) (min_lines : Nat) (ig : Bool) :
    List DuplicateBlock :=
  (List.insertionSort blockBefore (find_repeated_blocks files min_lines ig)).map sortHits

/-- Variant of `find_repeated_blocks` with the seed buckets visited in a caller-chosen
order (the C++ `unordered_map` iteration order is implementation-defined;
`seedsOf` insertion order is one choice). -/
def find_repeated_blocks_ord (files : List FileData) (min_lines : Nat) (ig : Bool)
    (seeds : List (Str × List Occurrence)) : List DuplicateBlock :=
  collectBlocks (processSeeds files min_lines ig seeds)

/-- Whole pipeline with a caller-chosen seed-bucket visit order. -/
def detect_duplicates_ord (files : List FileData) (min_lines : Nat) (ig : Bool)
    (seeds : List (Str × List Occurrence)) : List DuplicateBlock :=
  (List.insertionSort blockBefore (find_repeated_blocks_ord files min_lines ig seeds)).map
    sortHits

/-! ## Predicates used to state the claims -/

/-- Look a file up by path (well-defined on the pipeline's inputs, whose
paths are distinct after `expand_globs` deduplication, main.cpp:195). -/
def fileByPath (files : List FileData) (p : Str) : FileData :=
  (files.find? (fun f => f.path == p)).getD default

/-- The line just before a hit's range (0-based index `start_line - 2`). -/
def prevLine (files : List FileData) (h : Hit) : Str :=
  (fileByPath files h.path).lines.getD (h.start_line - 2) []

/-- The line just after a hit's range (0-based index `end_line`). -/
def nextLine (files : List FileData) (h : Hit) : Str :=
  (fileByPath files h.path).lines.getD h.end_line []

/-- A hit set could be extended one line upward: every hit has a preceding
line and all the preceding lines agree under the active comparison mode. -/
def extendableBackward (files : List FileData) (ig : Bool) (hits : List Hit) : Prop :=
  (∀ h ∈ hits, 2 ≤ h.start_line) ∧
  ∀ h ∈ hits, ∀ h2 ∈ hits, equal_line ig (prevLine files h) (prevLine files h2) = true

/-- A hit set could be extended one line downward. -/
def extendableForward (files : List FileData) (ig : Bool) (hits : List Hit) : Prop :=
  (∀ h ∈ hits, h.end_line < (fileByPath files h.path).lines.length) ∧
  ∀ h ∈ hits, ∀ h2 ∈ hits, equal_line ig (nextLine files h) (nextLine files h2) = true

/-- Occurrences that denote in-bounds seed windows. -/
def ValidOccs (files : List FileData) (min_lines : Nat) (occs : List Occurrence) : Prop :=
  ∀ oc ∈ occs, oc.file_index < files.length ∧
    oc.start + min_lines ≤ (fileAt files oc.file_index).lines.length

/-- A block as produced by `build_maximal_block` from some qualifying
(≥ 2 occurrences, in-bounds) seed group. -/
def GoodBlock (files : List FileData) (min_lines : Nat) (ig : Bool)
    (B : DuplicateBlock) : Prop :=
  ∃ occs, 2 ≤ occs.length ∧ ValidOccs files min_lines occs ∧
    build_maximal_block files occs min_lines ig = B

/-- Lines as produced by `read_lines_normalized` (main.cpp:253, `getline`
splitting): no stored line contains a newline character. -/
def NoNewlines (files : List FileData) : Prop :=
  ∀ f ∈ files, ∀ l ∈ f.lines, '\n' ∉ l

/-- Paths are pairwise distinct, as guaranteed by the `seen` set of
`expand_globs` (main.cpp:195-228). -/
def NodupPaths (files : List FileData) : Prop :=
  (files.map FileData.path).Nodup

/-! ## Glob engine (main.cpp:124-158, 205-228)

`to_regex_from_glob_suffix` translates a glob suffix into an anchored
ECMAScript regex built only from: escaped literal characters, `[^/]`,
`[^/]*` and `.*`.  We model the translation as producing a list of the
four corresponding atoms, and give the list the standard (ECMAScript)
matching semantics.  Note that the ECMAScript `.` (produced for `**`)
matches every character except the line terminators `'\n'` and `'\r'`,
while the negated class `[^/]` matches every character except `'/'`,
line terminators included. -/

/-- One atom of a generated regex. -/
inductive GAtom where
  | lit (c : Char)
  | anyNoSlash
  | starNoSlash
  | starDot
deriving DecidableEq, Repr

/-- Translation `to_regex_from_glob_suffix` (main.cpp:124-158) as an atom list: a run
of `k ≥ 2` stars becomes `.*` (`starDot`), a single star `[^/]*`
(`starNoSlash`), `?` becomes `[^/]` (`anyNoSlash`), and every other
character is escaped as needed and matches literally (`lit`).  The `^`/`$`
anchors are implicit in the matcher, which consumes the whole string. -/
def transAux : Nat → Str → List GAtom
  | 0, _ => []
  | fuel + 1, s =>
    match s with
    | [] => []
    | c :: rest =>
      if c = '*' then
        (if rest.takeWhile (fun x => x == '*') ≠ [] then GAtom.starDot else GAtom.starNoSlash)
          :: transAux fuel (rest.dropWhile (fun x => x == '*'))
      else if c = '?' then GAtom.anyNoSlash :: transAux fuel rest
      else GAtom.lit c :: transAux fuel rest

def to_regex_from_glob_suffix (s : Str) : List GAtom :=
  transAux (s.length + 1) s

/-- Kleene-star matching step: succeed if the continuation `k` accepts
some suffix of `s` such that every consumed character satisfies `ok`. -/
def starLoop (k : Str → Bool) (ok : Char → Bool) : Str → Bool
  | [] => k []
  | x :: s => k (x :: s) || (ok x && starLoop k ok s)

/-- Full-string matching of an atom list against a path, exactly the
ECMAScript semantics of the generated `^...$` regex under
`std::regex_match`. -/
def gmatch : List GAtom → Str → Bool
  | [], s => s.isEmpty
  | GAtom.lit c :: r, s =>
    match s with
    | [] => false
    | x :: s' => x == c && gmatch r s'
  | GAtom.anyNoSlash :: r, s =>
    match s with
    | [] => false
    | x :: s' => !(x == '/') && gmatch r s'
  | GAtom.starNoSlash :: r, s => starLoop (fun t => gmatch r t) (fun c => !(c == '/')) s
  | GAtom.starDot :: r, s =>
    starLoop (fun t => gmatch r t) (fun c => !(c == '\n') && !(c == '\r')) s

/-- Scenario A's file set (spec §8): `file1 = [A,B,C,D,E]`,
`file2 = [B,C,D,E,F]`. -/
def egFiles : List FileData :=
  [⟨"file1".toList, ["A", "B", "C", "D", "E"].map String.toList⟩,
   ⟨"file2".toList, ["B", "C", "D", "E", "F"].map String.toList⟩]

/-- Scenario C's file set (spec §8): identical 3-line windows except that
file1's third line carries extra indentation. -/
def egFilesC : List FileData :=
  [⟨"f1".toList, ["a", "b", "  x"].map String.toList⟩,
   ⟨"f2".toList, ["a", "b", "x"].map String.toList⟩]

end Dryfinder

namespace Dryfinder

/-! ## Basic facts about the extension loops -/

theorem refOcc_mem {occs : List Occurrence} (h : occs ≠ []) : refOcc occs ∈ occs := by
  cases occs with
  | nil => exact absurd rfl h
  | cons a l => exact List.mem_cons_self a l

theorem stepB_ne_nil {occs : List Occurrence} (h : occs ≠ []) : stepB occs ≠ [] := by
  cases occs with
  | nil => exact absurd rfl h
  | cons a l => simp [stepB]

theorem refOcc_stepB_start {occs : List Occurrence} (h : occs ≠ []) :
    (refOcc (stepB occs)).start = (refOcc occs).start - 1 := by
  cases occs with
  | nil => exact absurd rfl h
  | cons a l => rfl

theorem refOcc_stepB_idx {occs : List Occurrence} (h : occs ≠ []) :
    (refOcc (stepB occs)).file_index = (refOcc occs).file_index := by
  cases occs with
  | nil => exact absurd rfl h
  | cons a l => rfl

theorem not_stopB_pos {files : List FileData} {ig : Bool} {occs : List Occurrence}
    (h : stopB files ig occs = false) : ∀ oc ∈ occs, 1 ≤ oc.start := by
  intro oc hm
  unfold stopB at h
  rw [Bool.or_eq_false_iff] at h
  have h1 := h.1
  rw [List.any_eq_false] at h1
  have h2 : oc.start ≠ 0 := by simpa using h1 oc hm
  omega

theorem extendBackward_stop (files : List FileData) (ig : Bool) :
    ∀ (fuel : Nat) (occs : List Occurrence), occs ≠ [] →
      (refOcc occs).start + 1 ≤ fuel →
      stopB files ig (extendBackward files ig fuel occs) = true
  | 0, _, _, hf => absurd hf (by omega)
  | fuel + 1, occs, hne, hf => by
    rw [extendBackward]
    cases hs : stopB files ig occs with
    | true => simp only [if_true]; exact hs
    | false =>
      simp only [Bool.false_eq_true, if_false]
      have hpos : 1 ≤ (refOcc occs).start := not_stopB_pos hs _ (refOcc_mem hne)
      exact extendBackward_stop files ig fuel (stepB occs) (stepB_ne_nil hne)
        (by rw [refOcc_stepB_start hne]; omega)

theorem extendBackward_congr (files : List FileData) (ig : Bool) :
    ∀ (f1 f2 : Nat) (occs : List Occurrence), occs ≠ [] →
      (refOcc occs).start + 1 ≤ f1 → (refOcc occs).start + 1 ≤ f2 →
      extendBackward files ig f1 occs = extendBackward files ig f2 occs
  | 0, _, _, _, h1, _ => absurd h1 (by omega)
  | _ + 1, 0, _, _, _, h2 => absurd h2 (by omega)
  | f1 + 1, f2 + 1, occs, hne, h1, h2 => by
    rw [extendBackward, extendBackward]
    cases hs : stopB files ig occs with
    | true => simp
    | false =>
      simp only [Bool.false_eq_true, if_false]
      have hpos : 1 ≤ (refOcc occs).start := not_stopB_pos hs _ (refOcc_mem hne)
      exact extendBackward_congr files ig f1 f2 (stepB occs) (stepB_ne_nil hne)
        (by rw [refOcc_stepB_start hne]; omega) (by rw [refOcc_stepB_start hne]; omega)

theorem stopF_of_big {files : List FileData} {ig : Bool} {occs : List Occurrence} {len : Nat}
    (h : (fileAt files (refOcc occs).file_index).lines.length ≤ len) :
    stopF files ig occs len = true := by
  unfold stopF
  rw [Bool.or_eq_true]
  left
  exact decide_eq_true (by omega)

theorem extendForward_stop (files : List FileData) (ig : Bool) (occs : List Occurrence) :
    ∀ (fuel len : Nat),
      (fileAt files (refOcc occs).file_index).lines.length < len + fuel →
      stopF files ig occs (extendForward files ig occs fuel len) = true
  | 0, len, h => by
    rw [extendForward]
    exact stopF_of_big (by omega)
  | fuel + 1, len, h => by
    rw [extendForward]
    cases hs : stopF files ig occs len with
    | true => simpa using hs
    | false =>
      simp only [Bool.false_eq_true, if_false]
      exact extendForward_stop files ig occs fuel (len + 1) (by omega)

theorem extendForward_of_stop {files : List FileData} {ig : Bool} {occs : List Occurrence}
    {len : Nat} (h : stopF files ig occs len = true) :
    ∀ fuel, extendForward files ig occs fuel len = len := by
  intro fuel
  cases fuel with
  | zero => rw [extendForward]
  | succ f => rw [extendForward]; simp [h]

theorem extendForward_congr (files : List FileData) (ig : Bool) (occs : List Occurrence) :
    ∀ (f1 f2 len : Nat),
      (fileAt files (refOcc occs).file_index).lines.length < len + f1 →
      (fileAt files (refOcc occs).file_index).lines.length < len + f2 →
      extendForward files ig occs f1 len = extendForward files ig occs f2 len
  | 0, f2, len, h1, _ => by
    have hst : stopF files ig occs len = true := stopF_of_big (by omega)
    rw [extendForward_of_stop hst 0, extendForward_of_stop hst f2]
  | f1 + 1, 0, len, _, h2 => by
    have hst : stopF files ig occs len = true := stopF_of_big (by omega)
    rw [extendForward_of_stop hst (f1 + 1), extendForward_of_stop hst 0]
  | f1 + 1, f2 + 1, len, h1, h2 => by
    rw [extendForward, extendForward]
    cases hs : stopF files ig occs len with
    | true => simp
    | false =>
      simp only [Bool.false_eq_true, if_false]
      exact extendForward_congr files ig occs f1 f2 (len + 1) (by omega) (by omega)

/-- C10: both extension loops of `build_maximal_block` terminate within the
claimed bounds.  The backward loop's result is already reached with fuel
`start₀ + 1` (each iteration strictly decreases every occurrence's start,
which is bounded below by 0), the forward loop's result is already reached
with fuel covering the first occurrence's file line count (each iteration
strictly increases `length`, which is bounded above by that line count),
and at the computed results the loop stop conditions hold — so
`build_maximal_block`, and with it `find_repeated_blocks` and
`detect_duplicates` (total Lean functions), compute the exact fixpoints of
the C++ `while` loops. -/
theorem c10_extension_loops_terminate
    (files : List FileData) (ig : Bool) (occs : List Occurrence)
    (seed_len fb ff : Nat) (hne : occs ≠ [])
    (hfb : (refOcc occs).start + 1 ≤ fb)
    (hff : (fileAt files (refOcc (extendBackward files ig ((refOcc occs).start + 1)
      occs)).file_index).lines.length + 1 ≤ ff) :
    extendBackward files ig fb occs
      = extendBackward files ig ((refOcc occs).start + 1) occs
    ∧ stopB files ig (extendBackward files ig ((refOcc occs).start + 1) occs) = true
    ∧ extendForward files ig (extendBackward files ig ((refOcc occs).start + 1) occs)
        ff seed_len
      = extendForward files ig (extendBackward files ig ((refOcc occs).start + 1) occs)
          ((fileAt files (refOcc (extendBackward files ig ((refOcc occs).start + 1)
            occs)).file_index).lines.length + 1) seed_len
    ∧ stopF files ig (extendBackward files ig ((refOcc occs).start + 1) occs)
        (extendForward files ig (extendBackward files ig ((refOcc occs).start + 1) occs)
          ((fileAt files (refOcc (extendBackward files ig ((refOcc occs).start + 1)
            occs)).file_index).lines.length + 1) seed_len) = true := by
  refine ⟨extendBackward_congr files ig fb _ occs hne hfb (Nat.le_refl _),
    extendBackward_stop files ig _ occs hne (Nat.le_refl _), ?_, ?_⟩
  · exact extendForward_congr files ig _ ff _ seed_len (by omega) (by omega)
  · exact extendForward_stop files ig _ _ seed_len (by omega)

/-- Witness for C10 at Scenario A's seed group `{(file 0, line 1), (file 1,
line 0)}` with `seed_len = 3`. -/
theorem c10_extension_loops_terminate_witness :
    stopB egFiles false
      (extendBackward egFiles false ((refOcc [⟨0, 1⟩, ⟨1, 0⟩]).start + 1)
        [⟨0, 1⟩, ⟨1, 0⟩]) = true :=
  (c10_extension_loops_terminate egFiles false [⟨0, 1⟩, ⟨1, 0⟩] 3 5 9
    (by decide) (by decide) (by decide)).2.1

/-- C2: on Scenario A (`file1 = [A,B,C,D,E]`, `file2 = [B,C,D,E,F]`,
`min_lines = 3`, exact comparison) the pipeline returns exactly one block,
whose lines are `[B,C,D,E]` and whose hits are `file1:[2,5]` and
`file2:[1,4]` (1-based inclusive). -/
theorem c2_scenario_a :
    detect_duplicates egFiles 3 false =
      [{ lines := ["B", "C", "D", "E"].map String.toList,
         hits := [{ path := "file1".toList, start_line := 2, end_line := 5 },
                  { path := "file2".toList, start_line := 1, end_line := 4 }] }] := by
  decide

/-! ## Glob engine: semantics of the generated atoms -/

theorem transAux_succ (fuel : Nat) (c : Char) (rest : Str) :
    transAux (fuel + 1) (c :: rest) =
      if c = '*' then
        (if rest.takeWhile (fun x => x == '*') ≠ [] then GAtom.starDot else GAtom.starNoSlash)
          :: transAux fuel (rest.dropWhile (fun x => x == '*'))
      else if c = '?' then GAtom.anyNoSlash :: transAux fuel rest
      else GAtom.lit c :: transAux fuel rest := rfl

theorem transAux_congr :
    ∀ (f1 f2 : Nat) (s : Str), s.length < f1 → s.length < f2 →
      transAux f1 s = transAux f2 s
  | 0, _, s, h1, _ => absurd h1 (by omega)
  | _ + 1, 0, s, _, h2 => absurd h2 (by omega)
  | f1 + 1, f2 + 1, s, h1, h2 => by
    cases s with
    | nil => rfl
    | cons c rest =>
      rw [transAux_succ, transAux_succ]
      simp only [List.length_cons] at h1 h2
      by_cases hc : c = '*'
      · have hd := (@List.dropWhile_sublist Char rest (fun x => x == '*')).length_le
        rw [if_pos hc, if_pos hc,
          transAux_congr f1 f2 (rest.dropWhile (fun x => x == '*')) (by omega) (by omega)]
      · by_cases hq : c = '?'
        · rw [if_neg hc, if_neg hc, if_pos hq, if_pos hq,
            transAux_congr f1 f2 rest (by omega) (by omega)]
        · rw [if_neg hc, if_neg hc, if_neg hq, if_neg hq,
            transAux_congr f1 f2 rest (by omega) (by omega)]

theorem takeWhile_nil_dropWhile {p : Char → Bool} {l : Str}
    (h : l.takeWhile p = []) : l.dropWhile p = l := by
  cases l with
  | nil => rfl
  | cons c rest =>
    rw [List.takeWhile_cons] at h
    rw [List.dropWhile_cons]
    cases hp : p c with
    | true => rw [hp] at h; simp at h
    | false => simp [hp]

theorem starLoop_iff (k : Str → Bool) (ok : Char → Bool) :
    ∀ s : Str, (starLoop k ok s = true ↔
      ∃ u v, s = u ++ v ∧ (∀ c ∈ u, ok c = true) ∧ k v = true) := by
  intro s
  induction s with
  | nil =>
    simp only [starLoop]
    constructor
    · intro h
      exact ⟨[], [], rfl, fun c hc => absurd hc (List.not_mem_nil c), h⟩
    · rintro ⟨u, v, huv, _, hk⟩
      obtain ⟨rfl, rfl⟩ := List.append_eq_nil.mp huv.symm
      exact hk
  | cons x s ih =>
    simp only [starLoop, Bool.or_eq_true, Bool.and_eq_true]
    constructor
    · rintro (h | ⟨hok, h⟩)
      · exact ⟨[], x :: s, rfl, fun c hc => absurd hc (List.not_mem_nil c), h⟩
      · obtain ⟨u, v, rfl, hu, hk⟩ := ih.mp h
        refine ⟨x :: u, v, rfl, fun c hc => ?_, hk⟩
        rcases List.mem_cons.mp hc with rfl | hc
        · exact hok
        · exact hu c hc
    · rintro ⟨u, v, huv, hu, hk⟩
      cases u with
      | nil =>
        rw [List.nil_append] at huv
        exact Or.inl (huv ▸ hk)
      | cons c u =>
        rw [List.cons_append] at huv
        injection huv with h1 h2
        subst h1
        exact Or.inr ⟨hu _ (List.mem_cons_self _ _),
          ih.mpr ⟨u, v, h2, fun d hd => hu d (List.mem_cons_of_mem _ hd), hk⟩⟩

theorem gmatch_nil_iff (s : Str) : gmatch [] s = true ↔ s = [] := by
  simp [gmatch, List.isEmpty_iff]

theorem gmatch_lit_iff (c : Char) (r : List GAtom) (s : Str) :
    gmatch (GAtom.lit c :: r) s = true ↔ ∃ v, s = c :: v ∧ gmatch r v = true := by
  cases s with
  | nil => simp [gmatch]
  | cons x s =>
    simp only [gmatch, Bool.and_eq_true, beq_iff_eq]
    constructor
    · rintro ⟨rfl, h⟩; exact ⟨s, rfl, h⟩
    · rintro ⟨v, hv, h⟩
      injection hv with h1 h2
      exact ⟨h1, h2 ▸ h⟩

theorem gmatch_any_iff (r : List GAtom) (s : Str) :
    gmatch (GAtom.anyNoSlash :: r) s = true ↔
      ∃ x v, s = x :: v ∧ x ≠ '/' ∧ gmatch r v = true := by
  cases s with
  | nil => simp [gmatch]
  | cons x s =>
    simp only [gmatch, Bool.and_eq_true, Bool.not_eq_true', beq_eq_false_iff_ne, ne_eq]
    constructor
    · rintro ⟨hne, h⟩; exact ⟨x, s, rfl, hne, h⟩
    · rintro ⟨y, v, hv, hne, h⟩
      injection hv with h1 h2
      subst h1; subst h2
      exact ⟨hne, h⟩

theorem gmatch_starNoSlash_iff (r : List GAtom) (s : Str) :
    gmatch (GAtom.starNoSlash :: r) s = true ↔
      ∃ u v, s = u ++ v ∧ (∀ c ∈ u, c ≠ '/') ∧ gmatch r v = true := by
  have := starLoop_iff (fun t => gmatch r t) (fun c => !(c == '/')) s
  simp only [Bool.not_eq_true', beq_eq_false_iff_ne, ne_eq] at this
  exact this.trans (by tauto)

theorem gmatch_starDot_iff (r : List GAtom) (s : Str) :
    gmatch (GAtom.starDot :: r) s = true ↔
      ∃ u v, s = u ++ v ∧ (∀ c ∈ u, c ≠ '\n' ∧ c ≠ '\r') ∧ gmatch r v = true := by
  have := starLoop_iff (fun t => gmatch r t)
    (fun c => !(c == '\n') && !(c == '\r')) s
  simp only [Bool.and_eq_true, Bool.not_eq_true', beq_eq_false_iff_ne, ne_eq] at this
  exact this.trans (by tauto)

/-- C8 counterexample: the translation of `**` is the single ECMAScript
`.*` atom, and the path `a\nb` decomposes as a run of characters followed
by a suffix accepted by the rest of the (empty) pattern — so under the
claim's reading (`**` matches *any* run of characters) the path must
match — yet the code rejects it, because the ECMAScript `.` does not match
the line terminators `'\n'`/`'\r'`. -/
theorem c8_counterexample :
    to_regex_from_glob_suffix ('*' :: '*' :: []) = GAtom.starDot :: []
    ∧ gmatch (GAtom.starDot :: []) ('a' :: '\n' :: 'b' :: []) = false
    ∧ ('a' :: '\n' :: 'b' :: ([] : Str)) = ('a' :: '\n' :: 'b' :: []) ++ ([] : Str)
    ∧ gmatch ([] : List GAtom) [] = true := by
  decide

/-- C8 (amended): the glob suffix-to-predicate translation satisfies: a
single `*` becomes `[^/]*`, matching any (possibly empty) run of
characters excluding `'/'`; `?` becomes `[^/]`, matching exactly one
character other than `'/'`; a run of two or more consecutive `*` becomes
the ECMAScript `.*`, matching any run of characters — separators
included — *except the line terminators `'\n'` and `'\r'`* (the one
amendment forced by `c8_counterexample`); every other character, including
`'['` and `']'` of an unsupported bracket class, matches only itself
literally; and matching is anchored full-string: a fully consumed pattern
accepts only the empty remainder, so a relative path is accepted only when
the entire path matches. -/
theorem c8_glob_translation :
    (∀ s : Str, gmatch [] s = true ↔ s = [])
    ∧ (∀ (c : Char) (p : Str), c ≠ '*' → c ≠ '?' →
        to_regex_from_glob_suffix (c :: p) = GAtom.lit c :: to_regex_from_glob_suffix p)
    ∧ (∀ p : Str, to_regex_from_glob_suffix ('?' :: p)
        = GAtom.anyNoSlash :: to_regex_from_glob_suffix p)
    ∧ (∀ p : Str, p.takeWhile (fun x => x == '*') = [] →
        to_regex_from_glob_suffix ('*' :: p)
          = GAtom.starNoSlash :: to_regex_from_glob_suffix p)
    ∧ (∀ p : Str, p.takeWhile (fun x => x == '*') ≠ [] →
        to_regex_from_glob_suffix ('*' :: p)
          = GAtom.starDot :: to_regex_from_glob_suffix (p.dropWhile (fun x => x == '*')))
    ∧ (∀ (c : Char) (r : List GAtom) (s : Str),
        gmatch (GAtom.lit c :: r) s = true ↔ ∃ v, s = c :: v ∧ gmatch r v = true)
    ∧ (∀ (r : List GAtom) (s : Str),
        gmatch (GAtom.anyNoSlash :: r) s = true ↔
          ∃ x v, s = x :: v ∧ x ≠ '/' ∧ gmatch r v = true)
    ∧ (∀ (r : List GAtom) (s : Str),
        gmatch (GAtom.starNoSlash :: r) s = true ↔
          ∃ u v, s = u ++ v ∧ (∀ c ∈ u, c ≠ '/') ∧ gmatch r v = true)
    ∧ (∀ (r : List GAtom) (s : Str),
        gmatch (GAtom.starDot :: r) s = true ↔
          ∃ u v, s = u ++ v ∧ (∀ c ∈ u, c ≠ '\n' ∧ c ≠ '\r') ∧ gmatch r v = true) := by
  refine ⟨gmatch_nil_iff, ?_, ?_, ?_, ?_, gmatch_lit_iff, gmatch_any_iff,
    gmatch_starNoSlash_iff, gmatch_starDot_iff⟩
  · intro c p hs hq
    unfold to_regex_from_glob_suffix
    simp only [List.length_cons]
    rw [transAux_succ, if_neg hs, if_neg hq]
  · intro p
    unfold to_regex_from_glob_suffix
    simp only [List.length_cons]
    rw [transAux_succ, if_neg (by decide : ¬('?' = '*')), if_pos rfl]
  · intro p h
    unfold to_regex_from_glob_suffix
    simp only [List.length_cons]
    rw [transAux_succ, if_pos rfl, if_neg (by simp [h]), takeWhile_nil_dropWhile h]
  · intro p h
    unfold to_regex_from_glob_suffix
    simp only [List.length_cons]
    rw [transAux_succ, if_pos rfl, if_pos h]
    have hd := (@List.dropWhile_sublist Char p (fun x => x == '*')).length_le
    rw [transAux_congr (p.length + 1) ((p.dropWhile (fun x => x == '*')).length + 1)
      (p.dropWhile (fun x => x == '*')) (by omega) (by omega)]

/-! ## Order theory of the output comparators (for C6 and C3) -/

theorem strLt_irrefl (a : Str) : strLt a a = false := by
  simp [strLt]

theorem strLt_asymm {a b : Str} (h : strLt a b = true) : strLt b a = false := by
  simp only [strLt, decide_eq_true_eq] at h
  simp only [strLt, decide_eq_false_iff_not]
  exact lt_asymm h

theorem strLt_trans {a b c : Str} (h1 : strLt a b = true) (h2 : strLt b c = true) :
    strLt a c = true := by
  simp only [strLt, decide_eq_true_eq] at h1 h2 ⊢
  exact lt_trans h1 h2

theorem strLt_conn {a b : Str} (h : a ≠ b) : strLt a b = true ∨ strLt b a = true := by
  simp only [strLt, decide_eq_true_eq]
  exact lt_or_gt_of_ne h

theorem strLt_eq_of_not {a b : Str} (h1 : strLt a b = false) (h2 : strLt b a = false) :
    a = b := by
  simp only [strLt, decide_eq_false_iff_not] at h1 h2
  exact le_antisymm (le_of_not_lt h2) (le_of_not_lt h1)

theorem linesLt_irrefl : ∀ l : List Str, linesLt l l = false
  | [] => rfl
  | a :: as => by
    simp [linesLt, strLt_irrefl, linesLt_irrefl as]

theorem linesLt_asymm : ∀ {l1 l2 : List Str}, linesLt l1 l2 = true → linesLt l2 l1 = false
  | [], [], h => by simp [linesLt] at h
  | [], _ :: _, _ => by simp [linesLt]
  | _ :: _, [], h => by simp [linesLt] at h
  | a :: as, b :: bs, h => by
    simp only [linesLt] at h ⊢
    cases hab : strLt a b with
    | true => simp [strLt_asymm hab, hab]
    | false =>
      cases hba : strLt b a with
      | true => simp [hab, hba] at h
      | false =>
        simp only [hab, hba, Bool.false_eq_true, if_false] at h
        simp [hab, hba, linesLt_asymm h]

theorem linesLt_trans : ∀ {l1 l2 l3 : List Str},
    linesLt l1 l2 = true → linesLt l2 l3 = true → linesLt l1 l3 = true
  | [], [], _, h1, _ => by simp [linesLt] at h1
  | [], _ :: _, [], _, h2 => by simp [linesLt] at h2
  | [], _ :: _, _ :: _, _, _ => by simp [linesLt]
  | _ :: _, [], _, h1, _ => by simp [linesLt] at h1
  | _ :: _, _ :: _, [], _, h2 => by simp [linesLt] at h2
  | a :: as, b :: bs, c :: cs, h1, h2 => by
    simp only [linesLt] at h1 h2 ⊢
    cases hab : strLt a b with
    | true =>
      cases hbc : strLt b c with
      | true => simp [strLt_trans hab hbc]
      | false =>
        cases hcb : strLt c b with
        | true => simp [hbc, hcb] at h2
        | false =>
          have : b = c := strLt_eq_of_not hbc hcb
          subst this
          simp [hab]
    | false =>
      cases hba : strLt b a with
      | true => simp [hab, hba] at h1
      | false =>
        have : a = b := strLt_eq_of_not hab hba
        subst this
        simp only [hab, hba, Bool.false_eq_true, if_false] at h1
        cases hbc : strLt a c with
        | true => simp [hbc]
        | false =>
          cases hcb : strLt c a with
          | true => simp [hbc, hcb] at h2
          | false =>
            simp only [hbc, hcb, Bool.false_eq_true, if_false] at h2 ⊢
            exact linesLt_trans h1 h2

theorem linesLt_conn : ∀ {l1 l2 : List Str}, l1 ≠ l2 →
    linesLt l1 l2 = true ∨ linesLt l2 l1 = true
  | [], [], h => absurd rfl h
  | [], _ :: _, _ => by simp [linesLt]
  | _ :: _, [], _ => by simp [linesLt]
  | a :: as, b :: bs, h => by
    simp only [linesLt]
    by_cases hab : a = b
    · subst hab
      have hne : as ≠ bs := fun he => h (he ▸ rfl)
      rcases linesLt_conn hne with h1 | h1 <;>
        simp [strLt_irrefl, h1]
    · rcases strLt_conn hab with h1 | h1
      · simp [h1]
      · simp [strLt_asymm h1, h1]

theorem linesLt_eq_of_not {l1 l2 : List Str} (h1 : linesLt l1 l2 = false)
    (h2 : linesLt l2 l1 = false) : l1 = l2 := by
  by_contra hne
  rcases linesLt_conn hne with h | h
  · simp [h] at h1
  · simp [h] at h2

theorem linesLt_neg_trans {l1 l2 l3 : List Str} (h1 : linesLt l2 l1 = false)
    (h2 : linesLt l3 l2 = false) : linesLt l3 l1 = false := by
  cases h : linesLt l3 l1 with
  | false => rfl
  | true =>
    exfalso
    by_cases he : l3 = l2
    · subst he; simp [h] at h1
    · rcases linesLt_conn he with hx | hx
      · simp [hx] at h2
      · simp [linesLt_trans hx h] at h1

theorem hitLess_iff {a b : Hit} : hitLess a b = true ↔
    strLt a.path b.path = true
    ∨ (a.path = b.path ∧ (a.start_line < b.start_line
        ∨ (a.start_line = b.start_line ∧ a.end_line < b.end_line))) := by
  unfold hitLess
  by_cases hp : a.path = b.path
  · rw [if_neg (by simp [hp])]
    by_cases hs : a.start_line = b.start_line
    · rw [if_neg (by simp [hs])]
      simp [hp, hs, strLt_irrefl]
    · rw [if_pos hs]
      simp only [decide_eq_true_eq]
      constructor
      · intro h; exact Or.inr ⟨hp, Or.inl h⟩
      · rintro (h | ⟨_, h | ⟨he, _⟩⟩)
        · rw [hp] at h; simp [strLt_irrefl] at h
        · exact h
        · exact absurd he hs
  · rw [if_pos hp]
    constructor
    · intro h; exact Or.inl h
    · rintro (h | ⟨he, _⟩)
      · exact h
      · exact absurd he hp

theorem hitLess_irrefl (a : Hit) : hitLess a a = false := by
  cases h : hitLess a a with
  | false => rfl
  | true =>
    exfalso
    rw [hitLess_iff] at h
    rcases h with h | ⟨_, h | ⟨_, h⟩⟩
    · simp [strLt_irrefl] at h
    · omega
    · omega

theorem hitLess_asymm {a b : Hit} (h : hitLess a b = true) : hitLess b a = false := by
  cases hba : hitLess b a with
  | false => rfl
  | true =>
    exfalso
    rw [hitLess_iff] at h hba
    rcases h with h | ⟨hp, h⟩ <;> rcases hba with h2 | ⟨hp2, h2⟩
    · simp [strLt_asymm h] at h2
    · rw [hp2] at h; simp [strLt_irrefl] at h
    · rw [hp] at h2; simp [strLt_irrefl] at h2
    · omega

theorem hitLess_trans {a b c : Hit} (h1 : hitLess a b = true) (h2 : hitLess b c = true) :
    hitLess a c = true := by
  rw [hitLess_iff] at h1 h2 ⊢
  rcases h1 with h1 | ⟨hp1, h1⟩ <;> rcases h2 with h2 | ⟨hp2, h2⟩
  · exact Or.inl (strLt_trans h1 h2)
  · exact Or.inl (hp2 ▸ h1)
  · exact Or.inl (hp1 ▸ h2)
  · exact Or.inr ⟨hp1.trans hp2, by omega⟩

theorem hitLess_trichotomy (a b : Hit) :
    hitLess a b = true ∨ hitLess b a = true ∨ a = b := by
  by_cases hp : a.path = b.path
  · by_cases hs : a.start_line = b.start_line
    · rcases Nat.lt_trichotomy a.end_line b.end_line with h | h | h
      · exact Or.inl (hitLess_iff.mpr (Or.inr ⟨hp, Or.inr ⟨hs, h⟩⟩))
      · refine Or.inr (Or.inr ?_)
        cases a; cases b
        simp_all
      · exact Or.inr (Or.inl (hitLess_iff.mpr (Or.inr ⟨hp.symm, Or.inr ⟨hs.symm, h⟩⟩)))
    · rcases Nat.lt_or_lt_of_ne hs with h | h
      · exact Or.inl (hitLess_iff.mpr (Or.inr ⟨hp, Or.inl h⟩))
      · exact Or.inr (Or.inl (hitLess_iff.mpr (Or.inr ⟨hp.symm, Or.inl h⟩)))
  · rcases strLt_conn hp with h | h
    · exact Or.inl (hitLess_iff.mpr (Or.inl h))
    · exact Or.inr (Or.inl (hitLess_iff.mpr (Or.inl h)))

instance : IsTrans Hit hitBefore where
  trans a b c h1 h2 := by
    unfold hitBefore at h1 h2 ⊢
    cases hca : hitLess c a with
    | false => rfl
    | true =>
      exfalso
      rcases hitLess_trichotomy a b with h | h | h
      · rw [hitLess_trans hca h] at h2; exact Bool.true_eq_false.mp h2
      · rw [h] at h1; exact Bool.true_eq_false.mp h1
      · subst h; rw [hca] at h2; exact Bool.true_eq_false.mp h2

instance : IsTotal Hit hitBefore where
  total a b := by
    unfold hitBefore
    rcases hitLess_trichotomy a b with h | h | h
    · exact Or.inl (hitLess_asymm h)
    · exact Or.inr (hitLess_asymm h)
    · subst h; exact Or.inl (hitLess_irrefl a)

theorem linesLt_head_ne {x y : Str} {xs ys : List Str} (h : x ≠ y) :
    linesLt (x :: xs) (y :: ys) = strLt x y := by
  simp only [linesLt]
  cases hxy : strLt x y with
  | true => simp
  | false =>
    cases hyx : strLt y x with
    | true => simp
    | false => exact absurd (strLt_eq_of_not hxy hyx) h

theorem blockLess_iff {a b : DuplicateBlock} : blockLess a b = true ↔
    b.lines.length < a.lines.length
    ∨ (a.lines.length = b.lines.length ∧ (b.hits.length < a.hits.length
        ∨ (a.hits.length = b.hits.length ∧ linesLt a.lines b.lines = true))) := by
  unfold blockLess
  by_cases hl : a.lines.length = b.lines.length
  · rw [if_neg (by simp [hl])]
    by_cases hh : a.hits.length = b.hits.length
    · rw [if_neg (by simp [hh])]
      have core : (if a.lines ≠ [] ∧ b.lines ≠ [] ∧ a.lines.headD [] ≠ b.lines.headD []
          then strLt (a.lines.headD []) (b.lines.headD [])
          else linesLt a.lines b.lines) = linesLt a.lines b.lines := by
        by_cases hc : a.lines ≠ [] ∧ b.lines ≠ [] ∧ a.lines.headD [] ≠ b.lines.headD []
        · rw [if_pos hc]
          obtain ⟨ha, hb, hne⟩ := hc
          obtain ⟨x, xs, hla⟩ := List.exists_cons_of_ne_nil ha
          obtain ⟨y, ys, hlb⟩ := List.exists_cons_of_ne_nil hb
          rw [hla, hlb] at hne ⊢
          simp only [List.headD_cons] at hne ⊢
          exact (linesLt_head_ne hne).symm
        · rw [if_neg hc]
      rw [core]
      constructor
      · intro h; exact Or.inr ⟨hl, Or.inr ⟨hh, h⟩⟩
      · rintro (h | ⟨_, h | ⟨_, h⟩⟩)
        · omega
        · omega
        · exact h
    · rw [if_pos hh]
      simp only [decide_eq_true_eq]
      constructor
      · intro h; exact Or.inr ⟨hl, Or.inl h⟩
      · rintro (h | ⟨_, h | ⟨he, _⟩⟩)
        · omega
        · exact h
        · exact absurd he hh
  · rw [if_pos hl]
    simp only [decide_eq_true_eq]
    constructor
    · intro h; exact Or.inl h
    · rintro (h | ⟨he, _⟩)
      · exact h
      · exact absurd he hl

theorem blockLess_irrefl (a : DuplicateBlock) : blockLess a a = false := by
  cases h : blockLess a a with
  | false => rfl
  | true =>
    exfalso
    rw [blockLess_iff] at h
    rcases h with h | ⟨_, h | ⟨_, h⟩⟩
    · omega
    · omega
    · simp [linesLt_irrefl] at h

theorem blockLess_asymm {a b : DuplicateBlock} (h : blockLess a b = true) :
    blockLess b a = false := by
  cases hba : blockLess b a with
  | false => rfl
  | true =>
    exfalso
    rw [blockLess_iff] at h hba
    rcases h with h | ⟨hl, h⟩ <;> rcases hba with h2 | ⟨hl2, h2⟩
    · omega
    · omega
    · omega
    · rcases h with h | ⟨hh, h⟩ <;> rcases h2 with h2 | ⟨hh2, h2⟩
      · omega
      · omega
      · omega
      · simp [linesLt_asymm h] at h2

theorem blockLess_trans {a b c : DuplicateBlock} (h1 : blockLess a b = true)
    (h2 : blockLess b c = true) : blockLess a c = true := by
  rw [blockLess_iff] at h1 h2 ⊢
  rcases h1 with h1 | ⟨hl1, h1⟩ <;> rcases h2 with h2 | ⟨hl2, h2⟩
  · exact Or.inl (by omega)
  · exact Or.inl (by omega)
  · exact Or.inl (by omega)
  · refine Or.inr ⟨by omega, ?_⟩
    rcases h1 with h1 | ⟨hh1, h1⟩ <;> rcases h2 with h2 | ⟨hh2, h2⟩
    · exact Or.inl (by omega)
    · exact Or.inl (by omega)
    · exact Or.inl (by omega)
    · exact Or.inr ⟨by omega, linesLt_trans h1 h2⟩

theorem blockLess_trichotomy (a b : DuplicateBlock) :
    blockLess a b = true ∨ blockLess b a = true
    ∨ (a.lines.length = b.lines.length ∧ a.hits.length = b.hits.length
        ∧ a.lines = b.lines) := by
  by_cases hl : a.lines.length = b.lines.length
  · by_cases hh : a.hits.length = b.hits.length
    · by_cases he : a.lines = b.lines
      · exact Or.inr (Or.inr ⟨hl, hh, he⟩)
      · rcases linesLt_conn he with h | h
        · exact Or.inl (blockLess_iff.mpr (Or.inr ⟨hl, Or.inr ⟨hh, h⟩⟩))
        · exact Or.inr (Or.inl (blockLess_iff.mpr (Or.inr ⟨hl.symm, Or.inr ⟨hh.symm, h⟩⟩)))
    · rcases Nat.lt_or_lt_of_ne hh with h | h
      · exact Or.inr (Or.inl (blockLess_iff.mpr (Or.inr ⟨hl.symm, Or.inl h⟩)))
      · exact Or.inl (blockLess_iff.mpr (Or.inr ⟨hl, Or.inl h⟩))
  · rcases Nat.lt_or_lt_of_ne hl with h | h
    · exact Or.inr (Or.inl (blockLess_iff.mpr (Or.inl h)))
    · exact Or.inl (blockLess_iff.mpr (Or.inl h))

theorem blockLess_congr_left {a b c : DuplicateBlock}
    (hl : a.lines = b.lines) (hh : a.hits.length = b.hits.length) :
    blockLess a c = blockLess b c := by
  unfold blockLess
  rw [hl, hh]

theorem blockLess_congr_right {a b c : DuplicateBlock}
    (hl : a.lines = b.lines) (hh : a.hits.length = b.hits.length) :
    blockLess c a = blockLess c b := by
  unfold blockLess
  rw [hl, hh]

instance : IsTrans DuplicateBlock blockBefore where
  trans a b c h1 h2 := by
    unfold blockBefore at h1 h2 ⊢
    cases hca : blockLess c a with
    | false => rfl
    | true =>
      exfalso
      rcases blockLess_trichotomy a b with h | h | ⟨hl, hh, he⟩
      · rw [blockLess_trans hca h] at h2; exact Bool.true_eq_false.mp h2
      · rw [h] at h1; exact Bool.true_eq_false.mp h1
      · rw [blockLess_congr_right he hh] at hca
        rw [hca] at h2; exact Bool.true_eq_false.mp h2

instance : IsTotal DuplicateBlock blockBefore where
  total a b := by
    unfold blockBefore
    rcases blockLess_trichotomy a b with h | h | ⟨hl, hh, he⟩
    · exact Or.inl (blockLess_asymm h)
    · exact Or.inr (blockLess_asymm h)
    · refine Or.inl ?_
      rw [blockLess_congr_left he.symm hh.symm]
      exact blockLess_irrefl a

theorem length_insertionSort_hits (l : List Hit) :
    (List.insertionSort hitBefore l).length = l.length :=
  (List.perm_insertionSort hitBefore l).length_eq

theorem blockLess_sortHits (a b : DuplicateBlock) :
    blockLess (sortHits a) (sortHits b) = blockLess a b := by
  unfold blockLess sortHits
  simp only [length_insertionSort_hits]

/-- C6: the final block list is sorted by the main comparator
(main.cpp:546-552) — line count descending, then occurrence count
descending, then the ascending content tie-break that compares the blocks'
first lines and then the full line sequences (relation `blockBefore`, the
non-strict closure of `blockLess`) — and within each emitted block the
hits are sorted by path ascending, then start line, then end line
(relation `hitBefore`, from the comparator of main.cpp:460-464). -/
theorem c6_output_ordering (files : List FileData) (min_lines : Nat) (ig : Bool) :
    List.Sorted blockBefore (detect_duplicates files min_lines ig)
    ∧ ∀ b ∈ detect_duplicates files min_lines ig, List.Sorted hitBefore b.hits := by
  constructor
  · unfold detect_duplicates
    refine List.Pairwise.map sortHits (fun a b h => ?_)
      (List.sorted_insertionSort blockBefore (find_repeated_blocks files min_lines ig))
    unfold blockBefore at h ⊢
    rwa [blockLess_sortHits]
  · intro b hb
    unfold detect_duplicates at hb
    obtain ⟨b', _, rfl⟩ := List.mem_map.mp hb
    exact List.sorted_insertionSort hitBefore b'.hits

/-! ## Decimal representations, newline splitting, hit-key injectivity -/

theorem digitChar_ne_newline : ∀ d, d < 10 → digitChar d ≠ '\n' := by decide

theorem digitChar_toNat : ∀ d, d < 10 → (digitChar d).toNat = 48 + d := by decide

theorem decReprAux_congr : ∀ (f1 f2 n : Nat), n < f1 → n < f2 →
    decReprAux f1 n = decReprAux f2 n
  | 0, _, n, h1, _ => absurd h1 (by omega)
  | _ + 1, 0, n, _, h2 => absurd h2 (by omega)
  | f1 + 1, f2 + 1, n, h1, h2 => by
    rw [decReprAux, decReprAux]
    by_cases hn : n < 10
    · rw [if_pos hn, if_pos hn]
    · rw [if_neg hn, if_neg hn,
        decReprAux_congr f1 f2 (n / 10) (by omega) (by omega)]

theorem decRepr_step {n : Nat} (h : ¬n < 10) :
    decRepr n = decRepr (n / 10) ++ [digitChar (n % 10)] := by
  unfold decRepr
  rw [decReprAux, if_neg h, decReprAux_congr n (n / 10 + 1) (n / 10) (by omega) (by omega)]

theorem decRepr_small {n : Nat} (h : n < 10) : decRepr n = [digitChar n] := by
  unfold decRepr
  rw [decReprAux, if_pos h]

theorem decVal_append_digit (l : Str) (c : Char) :
    decVal (l ++ [c]) = 10 * decVal l + (c.toNat - 48) := by
  simp [decVal, List.foldl_append]

theorem decVal_decRepr : ∀ n, decVal (decRepr n) = n
  | n => by
    by_cases hn : n < 10
    · rw [decRepr_small hn]
      simp [decVal, digitChar_toNat n hn]
    · rw [decRepr_step hn, decVal_append_digit,
        decVal_decRepr (n / 10), digitChar_toNat (n % 10) (by omega)]
      omega
termination_by n => n
decreasing_by exact Nat.div_lt_self (by omega) (by omega)

theorem decRepr_inj {m n : Nat} (h : decRepr m = decRepr n) : m = n := by
  rw [← decVal_decRepr m, ← decVal_decRepr n, h]

theorem decRepr_no_newline : ∀ n, '\n' ∉ decRepr n
  | n => by
    by_cases hn : n < 10
    · rw [decRepr_small hn]
      intro hc
      rcases List.mem_singleton.mp hc with h
      exact digitChar_ne_newline n hn h.symm
    · rw [decRepr_step hn]
      intro hc
      rcases List.mem_append.mp hc with h | h
      · exact decRepr_no_newline (n / 10) h
      · exact digitChar_ne_newline (n % 10) (by omega) (List.mem_singleton.mp h).symm
termination_by n => n
decreasing_by exact Nat.div_lt_self (by omega) (by omega)

theorem splitNL_right : ∀ (x x' y y' : Str), x ++ '\n' :: y = x' ++ '\n' :: y' →
    '\n' ∉ y → '\n' ∉ y' → x = x' ∧ y = y'
  | [], [], y, y', h, _, _ => by
    rw [List.nil_append, List.nil_append] at h
    exact ⟨rfl, by injection h⟩
  | [], c :: xs', y, y', h, hy, hy' => by
    rw [List.nil_append, List.cons_append] at h
    injection h with h1 h2
    exact absurd (show ('\n' : Char) ∈ y by
      rw [h2]; exact List.mem_append_right xs' (List.mem_cons_self '\n' y')) hy
  | c :: xs, [], y, y', h, hy, hy' => by
    rw [List.nil_append, List.cons_append] at h
    injection h with h1 h2
    exact absurd (show ('\n' : Char) ∈ y' by
      rw [← h2]; exact List.mem_append_right xs (List.mem_cons_self '\n' y)) hy' 
  | c :: xs, c' :: xs', y, y', h, hy, hy' => by
    rw [List.cons_append, List.cons_append] at h
    injection h with h1 h2
    obtain ⟨hx, hyy⟩ := splitNL_right xs xs' y y' h2 hy hy'
    exact ⟨by rw [h1, hx], hyy⟩

theorem splitNL_left : ∀ (x x' y y' : Str), x ++ '\n' :: y = x' ++ '\n' :: y' →
    '\n' ∉ x → '\n' ∉ x' → x = x' ∧ y = y'
  | [], [], y, y', h, _, _ => by
    rw [List.nil_append, List.nil_append] at h
    exact ⟨rfl, by injection h⟩
  | [], c :: xs', y, y', h, hx, hx' => by
    rw [List.nil_append, List.cons_append] at h
    injection h with h1 h2
    exact absurd (h1 ▸ List.mem_cons_self c xs') hx'
  | c :: xs, [], y, y', h, hx, hx' => by
    rw [List.nil_append, List.cons_append] at h
    injection h with h1 h2
    exact absurd (h1.symm ▸ List.mem_cons_self c xs) hx
  | c :: xs, c' :: xs', y, y', h, hx, hx' => by
    rw [List.cons_append, List.cons_append] at h
    injection h with h1 h2
    obtain ⟨hxx, hyy⟩ := splitNL_left xs xs' y y'  h2
      (fun hc => hx (List.mem_cons_of_mem c hc))
      (fun hc => hx' (List.mem_cons_of_mem c' hc))
    exact ⟨by rw [h1, hxx], hyy⟩

theorem hitKey_regroup (h : Hit) :
    hitKey h = (h.path ++ '\n' :: decRepr h.start_line) ++ '\n' :: decRepr h.end_line := by
  unfold hitKey
  rw [List.append_assoc, List.cons_append]

theorem hitKey_inj {h1 h2 : Hit} (h : hitKey h1 = hitKey h2) : h1 = h2 := by
  rw [hitKey_regroup, hitKey_regroup] at h
  obtain ⟨ha, he⟩ := splitNL_right _ _ _ _ h
    (decRepr_no_newline h1.end_line) (decRepr_no_newline h2.end_line)
  obtain ⟨hp, hs⟩ := splitNL_right _ _ _ _ ha
    (decRepr_no_newline h1.start_line) (decRepr_no_newline h2.start_line)
  cases h1; cases h2
  simp only at hp hs he
  simp [hp, decRepr_inj hs, decRepr_inj he]

/-! ## Joined line lists: injectivity on newline-free lines -/

theorem joinNL_cons {a : Str} {rest : List Str} (h : rest ≠ []) :
    joinNL (a :: rest) = a ++ '\n' :: joinNL rest := by
  cases rest with
  | nil => exact absurd rfl h
  | cons b r => rfl

theorem joinNL_inj : ∀ (l1 l2 : List Str), l1 ≠ [] → l2 ≠ [] →
    (∀ s ∈ l1, '\n' ∉ s) → (∀ s ∈ l2, '\n' ∉ s) →
    joinNL l1 = joinNL l2 → l1 = l2
  | [], _, h1, _, _, _, _ => absurd rfl h1
  | _ :: _, [], _, h2, _, _, _ => absurd rfl h2
  | a :: as, b :: bs, _, _, hn1, hn2, h => by
    cases has : as with
    | nil =>
      cases hbs : bs with
      | nil =>
        subst has hbs
        exact by rw [show a = b from h]
      | cons c cs =>
        subst has hbs
        rw [joinNL, joinNL_cons (List.cons_ne_nil c cs)] at h
        exact absurd (h ▸ List.mem_append_right b (List.mem_cons_self '\n' _))
          (hn1 a (List.mem_cons_self a []))
    | cons c cs =>
      cases hbs : bs with
      | nil =>
        subst has hbs
        rw [joinNL_cons (List.cons_ne_nil c cs), joinNL] at h
        exact absurd (h.symm ▸ List.mem_append_right a (List.mem_cons_self '\n' _))
          (hn2 b (List.mem_cons_self b []))
      | cons d ds =>
        subst has hbs
        rw [joinNL_cons (List.cons_ne_nil c cs), joinNL_cons (List.cons_ne_nil d ds)] at h
        obtain ⟨hab, hj⟩ := splitNL_left _ _ _ _ h
          (hn1 a (List.mem_cons_self a _)) (hn2 b (List.mem_cons_self b _))
        have : c :: cs = d :: ds :=
          joinNL_inj (c :: cs) (d :: ds) (List.cons_ne_nil c cs) (List.cons_ne_nil d ds)
            (fun s hs => hn1 s (List.mem_cons_of_mem a hs))
            (fun s hs => hn2 s (List.mem_cons_of_mem b hs)) hj
        rw [hab, this]

theorem strip_indent_no_newline {s : Str} (h : '\n' ∉ s) : '\n' ∉ strip_indent s :=
  fun hc => h ((List.dropWhile_sublist _).subset hc)

theorem norm_line_no_newline {s : Str} (ig : Bool) (h : '\n' ∉ s) :
    '\n' ∉ norm_line ig s := by
  unfold norm_line
  cases ig with
  | false => simpa using h
  | true => simpa using strip_indent_no_newline h

theorem join_lines_norm_inj {l1 l2 : List Str} (ig : Bool) (h1 : l1 ≠ []) (h2 : l2 ≠ [])
    (hn1 : ∀ s ∈ l1, '\n' ∉ s) (hn2 : ∀ s ∈ l2, '\n' ∉ s)
    (h : join_lines_norm l1 ig = join_lines_norm l2 ig) :
    l1.map (norm_line ig) = l2.map (norm_line ig) := by
  unfold join_lines_norm at h
  exact joinNL_inj _ _ (by simpa using h1) (by simpa using h2)
    (by intro s hs
        obtain ⟨t, ht, rfl⟩ := List.mem_map.mp hs
        exact norm_line_no_newline ig (hn1 t ht))
    (by intro s hs
        obtain ⟨t, ht, rfl⟩ := List.mem_map.mp hs
        exact norm_line_no_newline ig (hn2 t ht)) h

theorem join_lines_norm_len {l1 l2 : List Str} (ig : Bool) (h1 : l1 ≠ []) (h2 : l2 ≠ [])
    (hn1 : ∀ s ∈ l1, '\n' ∉ s) (hn2 : ∀ s ∈ l2, '\n' ∉ s)
    (h : join_lines_norm l1 ig = join_lines_norm l2 ig) :
    l1.length = l2.length := by
  have := join_lines_norm_inj ig h1 h2 hn1 hn2 h
  have hlen := congrArg List.length this
  simpa using hlen

/-! ## Fold invariants and the seed-index characterization -/

theorem foldl_inv {α β : Type _} {f : β → α → β} {P : β → Prop} :
    ∀ {l : List α} {b : β}, P b → (∀ a ∈ l, ∀ acc, P acc → P (f acc a)) → P (l.foldl f b)
  | [], _, hb, _ => hb
  | a :: l, b, hb, hstep => by
    rw [List.foldl_cons]
    exact foldl_inv (hstep a (List.mem_cons_self a l) b hb)
      (fun x hx acc hacc => hstep x (List.mem_cons_of_mem a hx) acc hacc)

theorem addOcc_mem_ne : ∀ {m : List (Str × List Occurrence)} {k : Str} {oc : Occurrence}
    {k' : Str} {os' : List Occurrence}, k' ≠ k →
    ((k', os') ∈ addOcc m k oc ↔ (k', os') ∈ m)
  | [], k, oc, k', os', hne => by
    simp only [addOcc, List.mem_singleton, List.not_mem_nil, iff_false]
    intro h
    injection h with h1 _
    exact hne h1
  | (k0, os0) :: rest, k, oc, k', os', hne => by
    unfold addOcc
    by_cases hb : k0 = k
    · rw [if_pos (by simpa using hb)]
      subst hb
      simp only [List.mem_cons]
      constructor
      · rintro (h | h)
        · injection h with h1 _; exact absurd h1 hne
        · exact Or.inr h
      · rintro (h | h)
        · injection h with h1 _; exact absurd h1 hne
        · exact Or.inr h
    · rw [if_neg (by simpa using hb)]
      simp only [List.mem_cons]
      rw [addOcc_mem_ne hne]

theorem addOcc_keys : ∀ (m : List (Str × List Occurrence)) (k : Str) (oc : Occurrence),
    (addOcc m k oc).map Prod.fst =
      if k ∈ m.map Prod.fst then m.map Prod.fst else m.map Prod.fst ++ [k]
  | [], k, oc => by simp [addOcc]
  | (k0, os0) :: rest, k, oc => by
    unfold addOcc
    by_cases hb : k0 = k
    · subst hb
      rw [if_pos (by simp)]
      simp
    · rw [if_neg (by simpa using hb)]
      simp only [List.map_cons]
      rw [addOcc_keys rest k oc]
      by_cases hm : k ∈ rest.map Prod.fst
      · rw [if_pos hm, if_pos (by simp [hm])]
      · rw [if_neg hm, if_neg (by simp [hm, Ne.symm hb])]
        simp

theorem addOcc_keys_nodup {m : List (Str × List Occurrence)} {k : Str} {oc : Occurrence}
    (h : (m.map Prod.fst).Nodup) : ((addOcc m k oc).map Prod.fst).Nodup := by
  rw [addOcc_keys]
  by_cases hm : k ∈ m.map Prod.fst
  · rwa [if_pos hm]
  · rw [if_neg hm]
    simp [List.nodup_append, h, hm]

theorem addOcc_mem_self : ∀ {m : List (Str × List Occurrence)} {k : Str} {oc : Occurrence}
    {os' : List Occurrence}, (m.map Prod.fst).Nodup →
    ((k, os') ∈ addOcc m k oc ↔
      (∃ os₀, (k, os₀) ∈ m ∧ os' = os₀ ++ [oc]) ∨ (k ∉ m.map Prod.fst ∧ os' = [oc]))
  | [], k, oc, os', _ => by
    unfold addOcc
    constructor
    · intro h
      have heq := List.mem_singleton.mp h
      injection heq with _ h2
      exact Or.inr ⟨by simp, h2⟩
    · rintro (⟨os₀, hmem, _⟩ | ⟨_, rfl⟩)
      · exact absurd hmem (List.not_mem_nil _)
      · exact List.mem_singleton.mpr rfl
  | (k0, os0) :: rest, k, oc, os', hnd => by
    unfold addOcc
    have hnd' : (k0 :: rest.map Prod.fst).Nodup := by
      simpa only [List.map_cons] using hnd
    have hk0nr : k0 ∉ rest.map Prod.fst := (List.nodup_cons.mp hnd').1
    have hndr : (rest.map Prod.fst).Nodup := (List.nodup_cons.mp hnd').2
    by_cases hb : k0 = k
    · subst hb
      rw [if_pos (by simp)]
      constructor
      · intro h
        rcases List.mem_cons.mp h with heq | hmem
        · injection heq with _ h2
          exact Or.inl ⟨os0, List.mem_cons_self _ _, h2⟩
        · exact absurd (List.mem_map.mpr ⟨(k0, os'), hmem, rfl⟩) hk0nr
      · rintro (⟨os₀, hmem, rfl⟩ | ⟨hnot, rfl⟩)
        · rcases List.mem_cons.mp hmem with heq | hmem2
          · injection heq with _ h2
            subst h2
            exact List.mem_cons_self _ _
          · exact absurd (List.mem_map.mpr ⟨(k0, os₀), hmem2, rfl⟩) hk0nr
        · exact absurd (by simp : k0 ∈ ((k0, os0) :: rest).map Prod.fst) hnot
    · rw [if_neg (by simpa using hb)]
      constructor
      · intro h
        rcases List.mem_cons.mp h with heq | hmem
        · injection heq with h1 _; exact absurd h1.symm hb
        · rcases (addOcc_mem_self hndr).mp hmem with ⟨os₀, hm, rfl⟩ | ⟨hnot, rfl⟩
          · exact Or.inl ⟨os₀, List.mem_cons_of_mem _ hm, rfl⟩
          · refine Or.inr ⟨?_, rfl⟩
            intro hc
            have hc' : k ∈ k0 :: rest.map Prod.fst := by
              simpa only [List.map_cons] using hc
            rcases List.mem_cons.mp hc' with hc2 | hc2
            · exact hb hc2.symm
            · exact hnot hc2
      · rintro (⟨os₀, hmem, rfl⟩ | ⟨hnot, rfl⟩)
        · rcases List.mem_cons.mp hmem with heq | hmem2
          · injection heq with h1 _; exact absurd h1.symm hb
          · exact List.mem_cons_of_mem _
              ((addOcc_mem_self hndr).mpr (Or.inl ⟨os₀, hmem2, rfl⟩))
        · refine List.mem_cons_of_mem _ ((addOcc_mem_self hndr).mpr (Or.inr ⟨?_, rfl⟩))
          intro hc
          refine hnot ?_
          simp only [List.map_cons]
          exact List.mem_cons_of_mem _ hc

theorem seedsFold_keys_nodup (ws : List (Str × Occurrence)) :
    ((ws.foldl (fun m p => addOcc m p.1 p.2) []).map Prod.fst).Nodup := by
  induction ws using List.reverseRecOn with
  | nil => simp
  | append_singleton l p ih =>
    rw [List.foldl_append, List.foldl_cons, List.foldl_nil]
    exact addOcc_keys_nodup ih

theorem seedsFold_keys_mem (ws : List (Str × Occurrence)) (k : Str) :
    k ∈ (ws.foldl (fun m p => addOcc m p.1 p.2) []).map Prod.fst ↔
      ∃ p ∈ ws, p.1 = k := by
  induction ws using List.reverseRecOn with
  | nil => simp
  | append_singleton l p ih =>
    rw [List.foldl_append, List.foldl_cons, List.foldl_nil, addOcc_keys]
    by_cases hm : p.1 ∈ (l.foldl (fun m q => addOcc m q.1 q.2) []).map Prod.fst
    · rw [if_pos hm]
      rw [ih]
      constructor
      · rintro ⟨q, hq, rfl⟩
        exact ⟨q, List.mem_append_left _ hq, rfl⟩
      · rintro ⟨q, hq, rfl⟩
        rcases List.mem_append.mp hq with h | h
        · exact ⟨q, h, rfl⟩
        · rcases List.mem_singleton.mp h with rfl
          exact (ih.mp hm).imp (fun r hr => ⟨hr.1, hr.2⟩)
    · rw [if_neg hm]
      simp only [List.mem_append, List.mem_singleton, ih]
      constructor
      · rintro (⟨q, hq, rfl⟩ | rfl)
        · exact ⟨q, Or.inl hq, rfl⟩
        · exact ⟨p, Or.inr rfl, rfl⟩
      · rintro ⟨q, hq | hq, rfl⟩
        · exact Or.inl ⟨q, hq, rfl⟩
        · rcases hq with rfl
          exact Or.inr rfl

theorem seedsFold_char : ∀ (ws : List (Str × Occurrence)) (k : Str) (os : List Occurrence),
    (k, os) ∈ ws.foldl (fun m p => addOcc m p.1 p.2) [] →
    os = (ws.filter (fun p => p.1 == k)).map Prod.snd ∧ os ≠ [] := by
  intro ws
  induction ws using List.reverseRecOn with
  | nil => intro k os h; exact absurd h (List.not_mem_nil _)
  | append_singleton l p ih =>
    intro k os h
    rw [List.foldl_append, List.foldl_cons, List.foldl_nil] at h
    rw [List.filter_append]
    by_cases hk : k = p.1
    · subst hk
      rw [addOcc_mem_self (seedsFold_keys_nodup l)] at h
      rcases h with ⟨os₀, hmem, rfl⟩ | ⟨hnot, rfl⟩
      · obtain ⟨hos₀, _⟩ := ih p.1 os₀ hmem
        refine ⟨?_, by simp⟩
        rw [hos₀, List.filter_singleton]
        simp
      · have hfilter : l.filter (fun q => q.1 == p.1) = [] := by
          rw [List.filter_eq_nil_iff]
          intro q hq hcon
          exact hnot ((seedsFold_keys_mem l p.1).mpr ⟨q, hq, by simpa using hcon⟩)
        refine ⟨?_, by simp⟩
        rw [hfilter, List.filter_singleton]
        simp
    · rw [addOcc_mem_ne hk] at h
      obtain ⟨hos, hne⟩ := ih k os h
      have hp : (p.1 == k) = false := by
        simp only [beq_eq_false_iff_ne, ne_eq]
        exact fun hc => hk hc.symm
      refine ⟨?_, hne⟩
      rw [hos, List.filter_singleton, hp]
      simp

/-! ## Windows: validity of indexed occurrences -/

theorem mem_fileWindows {files : List FileData} {min_lines : Nat} {ig : Bool} {i : Nat}
    {p : Str × Occurrence} (h : p ∈ fileWindows files min_lines ig i) :
    p.2.file_index = i ∧ p.2.start + min_lines ≤ (fileAt files i).lines.length ∧
      p.1 = join_lines_norm (((fileAt files i).lines.drop p.2.start).take min_lines) ig := by
  unfold fileWindows at h
  by_cases hlt : (fileAt files i).lines.length < min_lines
  · rw [if_pos hlt] at h
    exact absurd h (List.not_mem_nil _)
  · rw [if_neg hlt] at h
    obtain ⟨s, hs, rfl⟩ := List.mem_map.mp h
    rw [List.mem_range] at hs
    refine ⟨rfl, ?_, rfl⟩
    show s + min_lines ≤ (fileAt files i).lines.length
    omega

theorem mem_allWindows {files : List FileData} {min_lines : Nat} {ig : Bool}
    {p : Str × Occurrence} (h : p ∈ allWindows files min_lines ig) :
    p.2.file_index < files.length
    ∧ p.2.start + min_lines ≤ (fileAt files p.2.file_index).lines.length
    ∧ p.1 = join_lines_norm
        (((fileAt files p.2.file_index).lines.drop p.2.start).take min_lines) ig := by
  unfold allWindows at h
  obtain ⟨i, hi, hp⟩ := List.mem_flatMap.mp h
  rw [List.mem_range] at hi
  obtain ⟨hidx, hb, hk⟩ := mem_fileWindows hp
  refine ⟨?_, ?_, ?_⟩
  · rw [hidx]; exact hi
  · rw [hidx]; exact hb
  · rw [hidx]; exact hk

/-- C9: if no `min_lines`-line window, under the active comparison mode,
occurs at two or more distinct (file, start-offset) locations — i.e. the
key list of all windows has no duplicate — then every seed bucket is a
singleton, no candidate group is formed, and the pipeline's output is
empty. -/
theorem filter_key_len_le_one :
    ∀ {ws : List (Str × Occurrence)}, (ws.map Prod.fst).Nodup →
      ∀ k : Str, (ws.filter (fun p => p.1 == k)).length ≤ 1
  | [], _, k => by simp
  | q :: ws, hnd, k => by
    have hnd' : (q.1 :: ws.map Prod.fst).Nodup := by
      simpa only [List.map_cons] using hnd
    obtain ⟨hq, hndr⟩ := List.nodup_cons.mp hnd'
    rw [List.filter_cons]
    by_cases hb : (q.1 == k) = true
    · rw [if_pos hb]
      have hnil : ws.filter (fun p => p.1 == k) = [] := by
        rw [List.filter_eq_nil_iff]
        intro a ha hcon
        have h1 : q.1 = k := by simpa using hb
        have h2 : a.1 = k := by simpa using hcon
        exact hq (by rw [h1, ← h2]; exact List.mem_map.mpr ⟨a, ha, rfl⟩)
      simp [hnil]
    · rw [if_neg hb]
      exact filter_key_len_le_one hndr k

theorem c9_no_repeated_window_empty (files : List FileData) (min_lines : Nat) (ig : Bool)
    (h : ((allWindows files min_lines ig).map Prod.fst).Nodup) :
    detect_duplicates files min_lines ig = [] := by
  have hseeds : ∀ q ∈ seedsOf files min_lines ig, q.2.length < 2 := by
    rintro ⟨k, os⟩ hq
    obtain ⟨hchar, _⟩ := seedsFold_char (allWindows files min_lines ig) k os hq
    have hle : os.length ≤ 1 := by
      rw [hchar, List.length_map]
      exact filter_key_len_le_one h k
    show os.length < 2
    omega
  have hps : processSeeds files min_lines ig (seedsOf files min_lines ig) = [] := by
    unfold processSeeds
    refine foldl_inv (P := fun m => m = []) rfl ?_
    intro p hp acc hacc
    rw [if_pos (hseeds p hp), hacc]
  unfold detect_duplicates find_repeated_blocks
  rw [hps]
  rfl

/-- Witness for C9: a single 3-line file with pairwise distinct windows of
length 2 produces no duplicate blocks. -/
theorem c9_no_repeated_window_empty_witness :
    detect_duplicates [⟨"f".toList, ["A", "B", "C"].map String.toList⟩] 2 false = [] :=
  c9_no_repeated_window_empty [⟨"f".toList, ["A", "B", "C"].map String.toList⟩] 2 false
    (by decide)

/-! ## Structure of the extension loops -/

theorem extendBackward_shape (files : List FileData) (ig : Bool) :
    ∀ (fuel : Nat) (occs : List Occurrence), ∃ β : Nat,
      extendBackward files ig fuel occs
        = occs.map (fun oc => { file_index := oc.file_index, start := oc.start - β })
  | 0, occs => ⟨0, by
    rw [extendBackward]
    conv_lhs => rw [← List.map_id occs]
    exact List.map_congr_left (fun oc _ => by simp)⟩
  | fuel + 1, occs => by
    rw [extendBackward]
    by_cases hs : stopB files ig occs = true
    · refine ⟨0, ?_⟩
      rw [if_pos hs]
      conv_lhs => rw [← List.map_id occs]
      exact List.map_congr_left (fun oc _ => by simp)
    · obtain ⟨β, hβ⟩ := extendBackward_shape files ig fuel (stepB occs)
      refine ⟨β + 1, ?_⟩
      rw [if_neg hs, hβ]
      unfold stepB
      rw [List.map_map]
      exact List.map_congr_left (fun oc _ => by
        simp only [Function.comp_apply, Occurrence.mk.injEq, true_and]
        omega)

theorem extendBackward_mem {files : List FileData} {ig : Bool} {fuel : Nat}
    {occs : List Occurrence} {oc' : Occurrence}
    (h : oc' ∈ extendBackward files ig fuel occs) :
    ∃ oc ∈ occs, oc'.file_index = oc.file_index ∧ oc'.start ≤ oc.start := by
  obtain ⟨β, hβ⟩ := extendBackward_shape files ig fuel occs
  rw [hβ] at h
  obtain ⟨oc, hoc, rfl⟩ := List.mem_map.mp h
  refine ⟨oc, hoc, rfl, ?_⟩
  show oc.start - β ≤ oc.start
  omega

theorem extendBackward_ne_nil {files : List FileData} {ig : Bool} {fuel : Nat}
    {occs : List Occurrence} (h : occs ≠ []) :
    extendBackward files ig fuel occs ≠ [] := by
  obtain ⟨β, hβ⟩ := extendBackward_shape files ig fuel occs
  rw [hβ]
  simpa using h

theorem extendBackward_refOcc {files : List FileData} {ig : Bool} {fuel : Nat}
    {occs : List Occurrence} (h : occs ≠ []) :
    ∃ β : Nat, refOcc (extendBackward files ig fuel occs)
        = { file_index := (refOcc occs).file_index, start := (refOcc occs).start - β }
      ∧ extendBackward files ig fuel occs
        = occs.map (fun oc => { file_index := oc.file_index, start := oc.start - β }) := by
  obtain ⟨β, hβ⟩ := extendBackward_shape files ig fuel occs
  refine ⟨β, ?_, hβ⟩
  rw [hβ]
  cases occs with
  | nil => exact absurd rfl h
  | cons a l => rfl

theorem extendForward_ge (files : List FileData) (ig : Bool) (occs : List Occurrence) :
    ∀ (fuel len : Nat), len ≤ extendForward files ig occs fuel len
  | 0, len => by rw [extendForward]
  | fuel + 1, len => by
    rw [extendForward]
    by_cases hs : stopF files ig occs len = true
    · rw [if_pos hs]
    · rw [if_neg hs]
      exact le_trans (by omega) (extendForward_ge files ig occs fuel (len + 1))

theorem extendForward_bound (files : List FileData) (ig : Bool) (occs : List Occurrence) :
    ∀ (fuel len : Nat),
      (refOcc occs).start + len ≤ (fileAt files (refOcc occs).file_index).lines.length →
      (refOcc occs).start + extendForward files ig occs fuel len
        ≤ (fileAt files (refOcc occs).file_index).lines.length
  | 0, len, h => by rw [extendForward]; exact h
  | fuel + 1, len, h => by
    rw [extendForward]
    by_cases hs : stopF files ig occs len = true
    · rw [if_pos hs]; exact h
    · rw [if_neg hs]
      refine extendForward_bound files ig occs fuel (len + 1) ?_
      unfold stopF at hs
      rw [Bool.or_eq_true] at hs
      push_neg at hs
      have h1 := hs.1
      simp only [ne_eq, decide_eq_true_eq] at h1
      omega

/-! ## Path lookup agrees with index lookup when paths are distinct -/

theorem fileAt_mem {files : List FileData} {i : Nat} (hi : i < files.length) :
    fileAt files i ∈ files := by
  unfold fileAt
  rw [List.getD_eq_getElem files default hi]
  exact List.getElem_mem hi

theorem fileByPath_fileAt {files : List FileData} (hnd : NodupPaths files) :
    ∀ {i : Nat}, i < files.length → fileByPath files (fileAt files i).path = fileAt files i := by
  induction files with
  | nil => intro i hi; exact absurd hi (by simp)
  | cons f fs ih =>
    intro i hi
    have hnd' : (f.path :: fs.map FileData.path).Nodup := by
      simpa only [List.map_cons] using hnd
    obtain ⟨hf, hndr⟩ := List.nodup_cons.mp hnd'
    cases i with
    | zero =>
      show fileByPath (f :: fs) (fileAt (f :: fs) 0).path = f
      unfold fileByPath fileAt
      simp [List.find?_cons_of_pos]
    | succ i =>
      have hi' : i < fs.length := by simpa using hi
      have hAt : fileAt (f :: fs) (i + 1) = fileAt fs i := by
        unfold fileAt
        simp
      rw [hAt]
      have hne : f.path ≠ (fileAt fs i).path := by
        intro hc
        exact hf (hc ▸ List.mem_map.mpr ⟨fileAt fs i, fileAt_mem hi', rfl⟩)
      unfold fileByPath
      rw [List.find?_cons_of_neg _ (by simpa using hne)]
      exact ih hndr hi'

/-! ## Postconditions of `build_maximal_block` -/

theorem build_maximal_block_eq (files : List FileData) (occs_in : List Occurrence)
    (seed_len : Nat) (ig : Bool) :
    build_maximal_block files occs_in seed_len ig =
      { lines := ((fileAt files (refOcc (extOccs files ig occs_in)).file_index).lines.drop
          (refOcc (extOccs files ig occs_in)).start).take (extLen files ig occs_in seed_len)
        hits := (extOccs files ig occs_in).map (fun oc =>
          { path := (fileAt files oc.file_index).path
            start_line := oc.start + 1
            end_line := oc.start + extLen files ig occs_in seed_len }) } := rfl

theorem extOccs_ne_nil {files : List FileData} {ig : Bool} {occs_in : List Occurrence}
    (h : occs_in ≠ []) : extOccs files ig occs_in ≠ [] :=
  extendBackward_ne_nil h

theorem extOccs_valid {files : List FileData} {ig : Bool} {min_lines : Nat}
    {occs_in : List Occurrence} (hval : ValidOccs files min_lines occs_in) :
    ValidOccs files min_lines (extOccs files ig occs_in) := by
  intro oc hoc
  obtain ⟨oc0, hmem, hfi, hle⟩ := extendBackward_mem hoc
  obtain ⟨h1, h2⟩ := hval oc0 hmem
  rw [hfi]
  exact ⟨h1, by omega⟩

theorem extLen_ge (files : List FileData) (ig : Bool) (occs_in : List Occurrence)
    (seed_len : Nat) : seed_len ≤ extLen files ig occs_in seed_len :=
  extendForward_ge files ig _ _ seed_len

theorem extLen_bound {files : List FileData} {ig : Bool} {min_lines : Nat}
    {occs_in : List Occurrence} (hne : occs_in ≠ [])
    (hval : ValidOccs files min_lines occs_in) :
    (refOcc (extOccs files ig occs_in)).start + extLen files ig occs_in min_lines
      ≤ (fileAt files (refOcc (extOccs files ig occs_in)).file_index).lines.length := by
  have hmem : refOcc (extOccs files ig occs_in) ∈ extOccs files ig occs_in :=
    refOcc_mem (extOccs_ne_nil hne)
  obtain ⟨_, h2⟩ := @extOccs_valid files ig min_lines occs_in hval _ hmem
  exact extendForward_bound files ig _ _ min_lines h2

theorem build_lines_length {files : List FileData} {ig : Bool} {min_lines : Nat}
    {occs_in : List Occurrence} (hne : occs_in ≠ [])
    (hval : ValidOccs files min_lines occs_in) :
    (build_maximal_block files occs_in min_lines ig).lines.length
      = extLen files ig occs_in min_lines := by
  rw [build_maximal_block_eq]
  have hb := @extLen_bound files ig min_lines occs_in hne hval
  simp only [List.length_take, List.length_drop]
  omega

theorem build_lines_ne_nil {files : List FileData} {ig : Bool} {min_lines : Nat}
    {occs_in : List Occurrence} (hmin : 1 ≤ min_lines) (hne : occs_in ≠ [])
    (hval : ValidOccs files min_lines occs_in) :
    (build_maximal_block files occs_in min_lines ig).lines ≠ [] := by
  have hlen := @build_lines_length files ig min_lines occs_in hne hval
  have hge := extLen_ge files ig occs_in min_lines
  intro hc
  rw [hc] at hlen
  simp at hlen
  omega

theorem build_lines_no_newline {files : List FileData} {ig : Bool} {min_lines : Nat}
    {occs_in : List Occurrence} (hne : occs_in ≠ [])
    (hval : ValidOccs files min_lines occs_in) (hnl : NoNewlines files) :
    ∀ l ∈ (build_maximal_block files occs_in min_lines ig).lines, '\n' ∉ l := by
  intro l hl
  rw [build_maximal_block_eq] at hl
  have hfi : (refOcc (extOccs files ig occs_in)).file_index < files.length :=
    (@extOccs_valid files ig min_lines occs_in hval _ (refOcc_mem (extOccs_ne_nil hne))).1
  have hsub : l ∈ (fileAt files (refOcc (extOccs files ig occs_in)).file_index).lines := by
    have h1 := (List.take_sublist _ _).subset hl
    exact (List.drop_sublist _ _).subset h1
  exact hnl _ (fileAt_mem hfi) l hsub

theorem build_hit_range {files : List FileData} {ig : Bool} {min_lines : Nat}
    {occs_in : List Occurrence} (hmin : 1 ≤ min_lines) :
    ∀ h ∈ (build_maximal_block files occs_in min_lines ig).hits,
      h.end_line - h.start_line + 1 = extLen files ig occs_in min_lines
      ∧ 1 ≤ h.start_line := by
  intro h hh
  rw [build_maximal_block_eq] at hh
  obtain ⟨oc, _, rfl⟩ := List.mem_map.mp hh
  have hge := extLen_ge files ig occs_in min_lines
  refine ⟨?_, ?_⟩
  · show oc.start + extLen files ig occs_in min_lines - (oc.start + 1) + 1 = _
    omega
  · show 1 ≤ oc.start + 1
    omega

theorem build_head_hit {files : List FileData} {ig : Bool} {min_lines : Nat}
    {occs_in : List Occurrence} (hne : occs_in ≠ [])
    (hval : ValidOccs files min_lines occs_in) :
    ∃ h ∈ (build_maximal_block files occs_in min_lines ig).hits, ∃ i,
      i < files.length ∧ (fileAt files i).path = h.path ∧
      (build_maximal_block files occs_in min_lines ig).lines
        = ((fileAt files i).lines.drop (h.start_line - 1)).take
            (h.end_line + 1 - h.start_line) := by
  rw [build_maximal_block_eq]
  have hnil := @extOccs_ne_nil files ig occs_in hne
  have hmem : refOcc (extOccs files ig occs_in) ∈ extOccs files ig occs_in :=
    refOcc_mem hnil
  have hfi : (refOcc (extOccs files ig occs_in)).file_index < files.length :=
    (@extOccs_valid files ig min_lines occs_in hval _ hmem).1
  refine ⟨_, List.mem_map.mpr ⟨refOcc (extOccs files ig occs_in), hmem, rfl⟩,
    (refOcc (extOccs files ig occs_in)).file_index, hfi, rfl, ?_⟩
  have h1 : (refOcc (extOccs files ig occs_in)).start + 1 - 1
      = (refOcc (extOccs files ig occs_in)).start := by omega
  have h2 : (refOcc (extOccs files ig occs_in)).start + extLen files ig occs_in min_lines
      + 1 - ((refOcc (extOccs files ig occs_in)).start + 1)
      = extLen files ig occs_in min_lines := by omega
  show _ = ((fileAt files (refOcc (extOccs files ig occs_in)).file_index).lines.drop
    ((refOcc (extOccs files ig occs_in)).start + 1 - 1)).take
      ((refOcc (extOccs files ig occs_in)).start + extLen files ig occs_in min_lines
        + 1 - ((refOcc (extOccs files ig occs_in)).start + 1))
  rw [h1, h2]

theorem prevLine_mk {files : List FileData} (hnd : NodupPaths files) {oc : Occurrence}
    {len : Nat} (hfi : oc.file_index < files.length) :
    prevLine files ⟨(fileAt files oc.file_index).path, oc.start + 1, oc.start + len⟩
      = lineAt files oc.file_index (oc.start - 1) := by
  unfold prevLine lineAt
  rw [fileByPath_fileAt hnd hfi]
  show (fileAt files oc.file_index).lines.getD (oc.start + 1 - 2) [] = _
  have hidx : oc.start + 1 - 2 = oc.start - 1 := by omega
  rw [hidx]

theorem nextLine_mk {files : List FileData} (hnd : NodupPaths files) {oc : Occurrence}
    {len : Nat} (hfi : oc.file_index < files.length) :
    nextLine files ⟨(fileAt files oc.file_index).path, oc.start + 1, oc.start + len⟩
      = lineAt files oc.file_index (oc.start + len) := by
  unfold nextLine lineAt
  rw [fileByPath_fileAt hnd hfi]

theorem build_not_extendable {files : List FileData} {ig : Bool} {min_lines : Nat}
    {occs_in : List Occurrence} (hne : occs_in ≠ [])
    (hval : ValidOccs files min_lines occs_in) (hnd : NodupPaths files) :
    ¬extendableBackward files ig (build_maximal_block files occs_in min_lines ig).hits
    ∧ ¬extendableForward files ig (build_maximal_block files occs_in min_lines ig).hits := by
  have hnil : extOccs files ig occs_in ≠ [] := extOccs_ne_nil hne
  have hvalx := @extOccs_valid files ig min_lines occs_in hval
  have hstopB : stopB files ig (extOccs files ig occs_in) = true :=
    extendBackward_stop files ig _ occs_in hne (Nat.le_refl _)
  have hstopF : stopF files ig (extOccs files ig occs_in)
      (extLen files ig occs_in min_lines) = true :=
    extendForward_stop files ig _ _ min_lines (by omega)
  constructor
  · rintro ⟨hall2, hprev⟩
    rw [build_maximal_block_eq] at hall2 hprev
    have hpos : (extOccs files ig occs_in).any (fun oc => oc.start == 0) = false := by
      rw [List.any_eq_false]
      intro oc hoc
      have h2 := hall2 _ (List.mem_map.mpr ⟨oc, hoc, rfl⟩)
      have h2' : 2 ≤ oc.start + 1 := h2
      simp only [beq_iff_eq]
      omega
    unfold stopB at hstopB
    rw [Bool.or_eq_true, hpos] at hstopB
    rcases hstopB with hc | hc
    · exact Bool.false_ne_true hc
    · rw [Bool.not_eq_true'] at hc
      rw [List.all_eq_false] at hc
      obtain ⟨oc, hoc, hocne⟩ := hc
      have hfi : oc.file_index < files.length := (hvalx oc hoc).1
      have hfir : (refOcc (extOccs files ig occs_in)).file_index < files.length :=
        (hvalx _ (refOcc_mem hnil)).1
      have heq := hprev _ (List.mem_map.mpr ⟨oc, hoc, rfl⟩)
        _ (List.mem_map.mpr ⟨refOcc (extOccs files ig occs_in), refOcc_mem hnil, rfl⟩)
      rw [prevLine_mk hnd hfi, prevLine_mk hnd hfir] at heq
      rw [heq] at hocne
      exact hocne rfl
  · rintro ⟨hallend, hnext⟩
    rw [build_maximal_block_eq] at hallend hnext
    have hfir : (refOcc (extOccs files ig occs_in)).file_index < files.length :=
      (hvalx _ (refOcc_mem hnil)).1
    have hheadend := hallend _
      (List.mem_map.mpr ⟨refOcc (extOccs files ig occs_in), refOcc_mem hnil, rfl⟩)
    rw [fileByPath_fileAt hnd hfir] at hheadend
    have hheadend' : (refOcc (extOccs files ig occs_in)).start
        + extLen files ig occs_in min_lines
        < (fileAt files (refOcc (extOccs files ig occs_in)).file_index).lines.length :=
      hheadend
    unfold stopF at hstopF
    rw [Bool.or_eq_true] at hstopF
    rcases hstopF with hc | hc
    · rw [decide_eq_true_eq] at hc
      omega
    · rw [Bool.not_eq_true'] at hc
      rw [List.all_eq_false] at hc
      obtain ⟨oc, hoc, hocne⟩ := hc
      have hfi : oc.file_index < files.length := (hvalx oc hoc).1
      have hocend := hallend _ (List.mem_map.mpr ⟨oc, hoc, rfl⟩)
      rw [fileByPath_fileAt hnd hfi] at hocend
      have hocend' : oc.start + extLen files ig occs_in min_lines
          < (fileAt files oc.file_index).lines.length := hocend
      have heq := hnext _ (List.mem_map.mpr ⟨oc, hoc, rfl⟩)
        _ (List.mem_map.mpr ⟨refOcc (extOccs files ig occs_in), refOcc_mem hnil, rfl⟩)
      rw [nextLine_mk hnd hfi, nextLine_mk hnd hfir] at heq
      rcases Bool.and_eq_false_iff.mp (Bool.eq_false_iff.mpr hocne) with hcc | hcc
      · rw [decide_eq_false_iff_not] at hcc
        exact hcc hocend' 
      · rw [heq] at hcc
        exact Bool.true_eq_false.mp hcc

/-! ## Aggregation invariants -/

theorem insertHit_lines (a : Agg) (h : Hit) : (insertHit a h).lines = a.lines := by
  unfold insertHit
  split_ifs <;> rfl

theorem insertHit_keys {a : Agg} (hK : KeysInv a) (h : Hit) : KeysInv (insertHit a h) := by
  intro k
  unfold insertHit
  by_cases hc : hitKey h ∈ a.hit_keys
  · rw [if_pos hc]
    exact hK k
  · rw [if_neg hc]
    simp only [List.mem_append, List.mem_singleton]
    constructor
    · rintro (hk | rfl)
      · obtain ⟨h', hm, he⟩ := (hK k).mp hk
        exact ⟨h', Or.inl hm, he⟩
      · exact ⟨h, Or.inr rfl, rfl⟩
    · rintro ⟨h', hm, he⟩
      rcases hm with hm | rfl
      · exact Or.inl ((hK k).mpr ⟨h', hm, he⟩)
      · exact Or.inr he.symm

theorem insertHit_nodup {a : Agg} (hK : KeysInv a) (hN : a.hits.Nodup) (h : Hit) :
    (insertHit a h).hits.Nodup := by
  unfold insertHit
  by_cases hc : hitKey h ∈ a.hit_keys
  · rw [if_pos hc]
    exact hN
  · rw [if_neg hc]
    have hnotin : h ∉ a.hits := fun hm => hc ((hK _).mpr ⟨h, hm, rfl⟩)
    simp [List.nodup_append, hN, hnotin]

theorem insertHit_mono {a : Agg} {h : Hit} : ∀ h' ∈ a.hits, h' ∈ (insertHit a h).hits := by
  intro h' hm
  unfold insertHit
  split_ifs
  · exact hm
  · exact List.mem_append_left _ hm

theorem insertHit_sub {a : Agg} {h : Hit} :
    ∀ h' ∈ (insertHit a h).hits, h' ∈ a.hits ∨ h' = h := by
  intro h' hm
  unfold insertHit at hm
  split_ifs at hm
  · exact Or.inl hm
  · rcases List.mem_append.mp hm with hm | hm
    · exact Or.inl hm
    · exact Or.inr (List.mem_singleton.mp hm)

theorem insertHit_self {a : Agg} (hK : KeysInv a) (h : Hit) : h ∈ (insertHit a h).hits := by
  unfold insertHit
  by_cases hc : hitKey h ∈ a.hit_keys
  · rw [if_pos hc]
    obtain ⟨h', hm, he⟩ := (hK _).mp hc
    rw [← hitKey_inj he]
    exact hm
  · rw [if_neg hc]
    exact List.mem_append_right _ (List.mem_singleton.mpr rfl)

theorem foldl_insertHit_lines : ∀ (hs : List Hit) (a : Agg),
    (hs.foldl insertHit a).lines = a.lines
  | [], a => rfl
  | h :: hs, a => by
    rw [List.foldl_cons, foldl_insertHit_lines hs (insertHit a h), insertHit_lines]

theorem foldl_insertHit_keys : ∀ (hs : List Hit) (a : Agg), KeysInv a →
    KeysInv (hs.foldl insertHit a)
  | [], _, hK => hK
  | h :: hs, a, hK => by
    rw [List.foldl_cons]
    exact foldl_insertHit_keys hs _ (insertHit_keys hK h)

theorem foldl_insertHit_nodup : ∀ (hs : List Hit) (a : Agg), KeysInv a → a.hits.Nodup →
    (hs.foldl insertHit a).hits.Nodup
  | [], _, _, hN => hN
  | h :: hs, a, hK, hN => by
    rw [List.foldl_cons]
    exact foldl_insertHit_nodup hs _ (insertHit_keys hK h) (insertHit_nodup hK hN h)

theorem foldl_insertHit_mono : ∀ (hs : List Hit) (a : Agg),
    ∀ h' ∈ a.hits, h' ∈ (hs.foldl insertHit a).hits
  | [], _, _, hm => hm
  | h :: hs, a, h', hm => by
    rw [List.foldl_cons]
    exact foldl_insertHit_mono hs _ h' (insertHit_mono h' hm)

theorem foldl_insertHit_sub : ∀ (hs : List Hit) (a : Agg),
    ∀ h' ∈ (hs.foldl insertHit a).hits, h' ∈ a.hits ∨ h' ∈ hs
  | [], _, _, hm => Or.inl hm
  | h :: hs, a, h', hm => by
    rw [List.foldl_cons] at hm
    rcases foldl_insertHit_sub hs _ h' hm with hm2 | hm2
    · rcases insertHit_sub h' hm2 with hm3 | rfl
      · exact Or.inl hm3
      · exact Or.inr (List.mem_cons_self _ _)
    · exact Or.inr (List.mem_cons_of_mem _ hm2)

theorem foldl_insertHit_all : ∀ (hs : List Hit) (a : Agg), KeysInv a →
    ∀ h ∈ hs, h ∈ (hs.foldl insertHit a).hits
  | [], _, _, _, hm => absurd hm (List.not_mem_nil _)
  | h :: hs, a, hK, h', hm => by
    rw [List.foldl_cons]
    rcases List.mem_cons.mp hm with rfl | hm2
    · exact foldl_insertHit_mono hs _ h' (insertHit_self hK h')
    · exact foldl_insertHit_all hs _ (insertHit_keys hK h) h' hm2

theorem mergeBlock_lines (a : Agg) (b : DuplicateBlock) :
    (mergeBlock a b).lines = if a.lines.isEmpty then b.lines else a.lines := by
  unfold mergeBlock
  rw [foldl_insertHit_lines]

theorem mergeBlock_keys {a : Agg} (hK : KeysInv a) (b : DuplicateBlock) :
    KeysInv (mergeBlock a b) := by
  unfold mergeBlock
  refine foldl_insertHit_keys _ _ ?_
  intro k
  exact hK k

theorem mergeBlock_nodup {a : Agg} (hK : KeysInv a) (hN : a.hits.Nodup)
    (b : DuplicateBlock) : (mergeBlock a b).hits.Nodup := by
  unfold mergeBlock
  refine foldl_insertHit_nodup _ _ (fun k => hK k) hN

theorem mergeBlock_mono {a : Agg} (b : DuplicateBlock) :
    ∀ h ∈ a.hits, h ∈ (mergeBlock a b).hits := by
  intro h hm
  unfold mergeBlock
  exact foldl_insertHit_mono _ _ h hm

theorem mergeBlock_sub {a : Agg} (b : DuplicateBlock) :
    ∀ h ∈ (mergeBlock a b).hits, h ∈ a.hits ∨ h ∈ b.hits := by
  intro h hm
  unfold mergeBlock at hm
  have := foldl_insertHit_sub b.hits
    { a with lines := if a.lines.isEmpty then b.lines else a.lines } h hm
  simpa using this

theorem mergeBlock_all {a : Agg} (hK : KeysInv a) (b : DuplicateBlock) :
    ∀ h ∈ b.hits, h ∈ (mergeBlock a b).hits := by
  intro h hm
  unfold mergeBlock
  refine foldl_insertHit_all b.hits
    { a with lines := if a.lines.isEmpty then b.lines else a.lines } ?_ h hm
  intro k
  exact hK k

theorem addAgg_pres {P : Str → Agg → Prop} :
    ∀ (m : List (Str × Agg)) (ck : Str) (b : DuplicateBlock),
      (∀ q ∈ m, P q.1 q.2) →
      P ck (mergeBlock { lines := [], hit_keys := [], hits := [] } b) →
      (∀ a : Agg, P ck a → P ck (mergeBlock a b)) →
      ∀ q ∈ addAgg m ck b, P q.1 q.2
  | [], ck, b, _, hnew, _ => by
    intro q hq
    unfold addAgg at hq
    rcases List.mem_singleton.mp hq with rfl
    exact hnew
  | (k, a) :: rest, ck, b, hm, hnew, hupd => by
    unfold addAgg
    by_cases hb : k = ck
    · rw [if_pos (by simpa using hb)]
      subst hb
      intro q hq
      rcases List.mem_cons.mp hq with rfl | hq2
      · exact hupd a (hm (k, a) (List.mem_cons_self _ _))
      · exact hm q (List.mem_cons_of_mem _ hq2)
    · rw [if_neg (by simpa using hb)]
      intro q hq
      rcases List.mem_cons.mp hq with rfl | hq2
      · exact hm (k, a) (List.mem_cons_self _ _)
      · exact addAgg_pres rest ck b (fun r hr => hm r (List.mem_cons_of_mem _ hr))
          hnew hupd q hq2

theorem seedsOf_valid (files : List FileData) (min_lines : Nat) (ig : Bool) :
    ∀ q ∈ seedsOf files min_lines ig, ValidOccs files min_lines q.2 := by
  rintro ⟨k, os⟩ hq oc hoc
  obtain ⟨hchar, _⟩ := seedsFold_char (allWindows files min_lines ig) k os hq
  rw [hchar] at hoc
  obtain ⟨p, hp, rfl⟩ := List.mem_map.mp hoc
  have hpw : p ∈ allWindows files min_lines ig := (List.mem_filter.mp hp).1
  obtain ⟨h1, h2, _⟩ := mem_allWindows hpw
  exact ⟨h1, h2⟩

theorem goodBlock_lines_ne_nil {files : List FileData} {min_lines : Nat} {ig : Bool}
    {B : DuplicateBlock} (hmin : 1 ≤ min_lines) (hg : GoodBlock files min_lines ig B) :
    B.lines ≠ [] := by
  obtain ⟨occs, hge2, hval, rfl⟩ := hg
  have hne : occs ≠ [] := by
    intro hc
    rw [hc] at hge2
    simp at hge2
  exact build_lines_ne_nil hmin hne hval

theorem processSeeds_inv (files : List FileData) (min_lines : Nat) (ig : Bool)
    (hmin : 1 ≤ min_lines) :
    ∀ q ∈ processSeeds files min_lines ig (seedsOf files min_lines ig),
      KeysInv q.2
      ∧ q.2.hits.Nodup
      ∧ (∀ h ∈ q.2.hits, ∃ B, GoodBlock files min_lines ig B
          ∧ q.1 = join_lines_norm B.lines ig ∧ h ∈ B.hits)
      ∧ (∃ B, GoodBlock files min_lines ig B ∧ q.1 = join_lines_norm B.lines ig
          ∧ q.2.lines = B.lines ∧ ∀ h ∈ B.hits, h ∈ q.2.hits) := by
  unfold processSeeds
  refine foldl_inv (P := fun m : List (Str × Agg) => ∀ q ∈ m,
      KeysInv q.2
      ∧ q.2.hits.Nodup
      ∧ (∀ h ∈ q.2.hits, ∃ B, GoodBlock files min_lines ig B
          ∧ q.1 = join_lines_norm B.lines ig ∧ h ∈ B.hits)
      ∧ (∃ B, GoodBlock files min_lines ig B ∧ q.1 = join_lines_norm B.lines ig
          ∧ q.2.lines = B.lines ∧ ∀ h ∈ B.hits, h ∈ q.2.hits))
    (by intro q hq; exact absurd hq (List.not_mem_nil _)) ?_
  intro p hp acc hQ
  by_cases hlen : p.2.length < 2
  · rw [if_pos hlen]
    exact hQ
  · rw [if_neg hlen]
    have hval : ValidOccs files min_lines p.2 := seedsOf_valid files min_lines ig p hp
    have hge2 : 2 ≤ p.2.length := by omega
    have hgood : GoodBlock files min_lines ig (build_maximal_block files p.2 min_lines ig) :=
      ⟨p.2, hge2, hval, rfl⟩
    refine addAgg_pres (P := fun ck a =>
      KeysInv a
      ∧ a.hits.Nodup
      ∧ (∀ h ∈ a.hits, ∃ B, GoodBlock files min_lines ig B
          ∧ ck = join_lines_norm B.lines ig ∧ h ∈ B.hits)
      ∧ (∃ B, GoodBlock files min_lines ig B ∧ ck = join_lines_norm B.lines ig
          ∧ a.lines = B.lines ∧ ∀ h ∈ B.hits, h ∈ a.hits)) acc _ _ hQ ?_ ?_
    · -- freshly created aggregate
      have hKe : KeysInv { lines := [], hit_keys := [], hits := ([] : List Hit) } := by
        intro k
        constructor
        · intro hc; exact absurd hc (List.not_mem_nil _)
        · rintro ⟨h, hm, _⟩; exact absurd hm (List.not_mem_nil _)
      refine ⟨mergeBlock_keys hKe _, mergeBlock_nodup hKe (by simp) _, ?_, ?_⟩
      · intro h hm
        rcases mergeBlock_sub _ h hm with hm2 | hm2
        · exact absurd hm2 (List.not_mem_nil _)
        · exact ⟨build_maximal_block files p.2 min_lines ig, hgood, rfl, hm2⟩
      · refine ⟨build_maximal_block files p.2 min_lines ig, hgood, rfl, ?_, ?_⟩
        · rw [mergeBlock_lines]
          simp
        · exact mergeBlock_all hKe _
    · -- merging into an existing aggregate
      rintro a ⟨hK, hN, hsrc, B0, hg0, hck0, hlines0, hsub0⟩
      refine ⟨mergeBlock_keys hK _, mergeBlock_nodup hK hN _, ?_, ?_⟩
      · intro h hm
        rcases mergeBlock_sub _ h hm with hm2 | hm2
        · exact hsrc h hm2
        · exact ⟨build_maximal_block files p.2 min_lines ig, hgood, rfl, hm2⟩
      · refine ⟨B0, hg0, hck0, ?_, ?_⟩
        · rw [mergeBlock_lines]
          have hBne : B0.lines ≠ [] := goodBlock_lines_ne_nil hmin hg0
          have hane : a.lines ≠ [] := by
            rw [hlines0]
            exact hBne
          rw [if_neg (by simpa using hane)]
          exact hlines0
        · intro h hm
          exact mergeBlock_mono _ h (hsub0 h hm)

/-! ## Membership in the final output -/

theorem detect_mem {files : List FileData} {min_lines : Nat} {ig : Bool}
    {b : DuplicateBlock} (hb : b ∈ detect_duplicates files min_lines ig) :
    ∃ q ∈ processSeeds files min_lines ig (seedsOf files min_lines ig),
      2 ≤ q.2.hits.length ∧ b.lines = q.2.lines
      ∧ b.hits = List.insertionSort hitBefore q.2.hits := by
  unfold detect_duplicates at hb
  obtain ⟨b', hb', rfl⟩ := List.mem_map.mp hb
  have hb'' : b' ∈ find_repeated_blocks files min_lines ig :=
    (List.mem_insertionSort blockBefore).mp hb'
  unfold find_repeated_blocks collectBlocks at hb''
  obtain ⟨q, hq, rfl⟩ := List.mem_map.mp hb''
  have hq1 := List.mem_filter.mp hq
  exact ⟨q, hq1.1, by simpa using hq1.2, rfl, rfl⟩

theorem extendableBackward_subset {files : List FileData} {ig : Bool}
    {hits1 hits2 : List Hit} (hsub : ∀ h ∈ hits1, h ∈ hits2)
    (he : extendableBackward files ig hits2) : extendableBackward files ig hits1 :=
  ⟨fun h hm => he.1 h (hsub h hm), fun h hm h2 hm2 => he.2 h (hsub h hm) h2 (hsub h2 hm2)⟩

theorem extendableForward_subset {files : List FileData} {ig : Bool}
    {hits1 hits2 : List Hit} (hsub : ∀ h ∈ hits1, h ∈ hits2)
    (he : extendableForward files ig hits2) : extendableForward files ig hits1 :=
  ⟨fun h hm => he.1 h (hsub h hm), fun h hm h2 hm2 => he.2 h (hsub h hm) h2 (hsub h2 hm2)⟩

/-- C4: every block in the final output has at least 2 hits, and its hits
are pairwise distinct `(path, start_line, end_line)` triples (so in
particular no contiguous region is ever reported as two occurrences of
itself): the `hit_keys` set admits each identity key exactly once and the
final filter requires `agg.hits.size() >= 2`. -/
theorem c4_hits_distinct_and_two (files : List FileData) (min_lines : Nat) (ig : Bool)
    (hmin : 1 ≤ min_lines) :
    ∀ b ∈ detect_duplicates files min_lines ig, 2 ≤ b.hits.length ∧ b.hits.Nodup := by
  intro b hb
  obtain ⟨q, hq, h2, _, hhits⟩ := detect_mem hb
  obtain ⟨_, hN, _, _⟩ := processSeeds_inv files min_lines ig hmin q hq
  constructor
  · rw [hhits, (List.perm_insertionSort hitBefore q.2.hits).length_eq]
    exact h2
  · rw [hhits]
    exact ((List.perm_insertionSort hitBefore q.2.hits).nodup_iff).mpr hN

/-- Witness for C4 at Scenario A. -/
theorem c4_hits_distinct_and_two_witness :
    2 ≤ (⟨["B", "C", "D", "E"].map String.toList,
      [⟨"file1".toList, 2, 5⟩, ⟨"file2".toList, 1, 4⟩]⟩ : DuplicateBlock).hits.length
    ∧ (⟨["B", "C", "D", "E"].map String.toList,
      [⟨"file1".toList, 2, 5⟩, ⟨"file2".toList, 1, 4⟩]⟩ : DuplicateBlock).hits.Nodup :=
  c4_hits_distinct_and_two egFiles 3 false (by decide) _ (by decide)

/-- C5: for every block in the final output and every one of its hits,
`end_line - start_line + 1` equals the number of stored block lines —
including hits contributed by a different seed group than the one that
supplied the stored lines, because equal content keys force equal line
counts on newline-free lines. -/
theorem c5_range_consistency (files : List FileData) (min_lines : Nat) (ig : Bool)
    (hmin : 1 ≤ min_lines) (hnl : NoNewlines files) :
    ∀ b ∈ detect_duplicates files min_lines ig, ∀ h ∈ b.hits,
      h.end_line - h.start_line + 1 = b.lines.length := by
  intro b hb h hh
  obtain ⟨q, hq, _, hlines, hhits⟩ := detect_mem hb
  obtain ⟨_, _, hsrc, B0, hg0, hck0, hlines0, _⟩ :=
    processSeeds_inv files min_lines ig hmin q hq
  have hh' : h ∈ q.2.hits := by
    rw [hhits] at hh
    exact (List.mem_insertionSort hitBefore).mp hh
  obtain ⟨B, hgB, hckB, hhB⟩ := hsrc h hh'
  obtain ⟨occsB, hge2B, hvalB, hBeq⟩ := hgB
  have hneB : occsB ≠ [] := by
    intro hc
    rw [hc] at hge2B
    simp at hge2B
  have hhB' : h ∈ (build_maximal_block files occsB min_lines ig).hits := by
    rw [hBeq]
    exact hhB
  have hr := @build_hit_range files ig min_lines occsB hmin h hhB'
  have hBlen : B.lines.length = extLen files ig occsB min_lines := by
    rw [← hBeq]
    exact build_lines_length hneB hvalB
  obtain ⟨occs0, hge20, hval0, h0eq⟩ := hg0
  have hne0 : occs0 ≠ [] := by
    intro hc
    rw [hc] at hge20
    simp at hge20
  have hklen : B.lines.length = B0.lines.length := by
    refine join_lines_norm_len ig ?_ ?_ ?_ ?_ (hckB.symm.trans hck0)
    · exact goodBlock_lines_ne_nil hmin ⟨occsB, hge2B, hvalB, hBeq⟩
    · exact goodBlock_lines_ne_nil hmin ⟨occs0, hge20, hval0, h0eq⟩
    · rw [← hBeq]
      exact build_lines_no_newline hneB hvalB hnl
    · rw [← h0eq]
      exact build_lines_no_newline hne0 hval0 hnl
  rw [hlines, hlines0, ← hklen, hBlen]
  exact hr.1

/-- Witness for C5 at Scenario A. -/
theorem c5_range_consistency_witness :
    (5 : Nat) - 2 + 1 = (["B", "C", "D", "E"].map String.toList).length :=
  c5_range_consistency egFiles 3 false (by decide) (by unfold NoNewlines; decide)
    ⟨["B", "C", "D", "E"].map String.toList,
      [⟨"file1".toList, 2, 5⟩, ⟨"file2".toList, 1, 4⟩]⟩ (by decide)
    ⟨"file1".toList, 2, 5⟩ (by decide)

/-- C7: indentation-stripped equality only governs grouping and extension,
never stored content — every output block's lines are the verbatim
contiguous slice of one representative occurrence's file, and on
Scenario C (`ignore_indentation = true`, third lines `"  x"` vs `"x"`) the
two windows are grouped as duplicates and the emitted content carries the
representative's original indentation `"  x"`. -/
theorem c7_verbatim_content (files : List FileData) (min_lines : Nat) (ig : Bool)
    (hmin : 1 ≤ min_lines) :
    (∀ b ∈ detect_duplicates files min_lines ig, ∃ h ∈ b.hits, ∃ i,
      i < files.length ∧ (fileAt files i).path = h.path ∧
      b.lines = ((fileAt files i).lines.drop (h.start_line - 1)).take
        (h.end_line + 1 - h.start_line))
    ∧ detect_duplicates egFilesC 3 true =
        [⟨["a", "b", "  x"].map String.toList,
          [⟨"f1".toList, 1, 3⟩, ⟨"f2".toList, 1, 3⟩]⟩] := by
  constructor
  · intro b hb
    obtain ⟨q, hq, _, hlines, hhits⟩ := detect_mem hb
    obtain ⟨_, _, _, B0, hg0, _, hlines0, hsub0⟩ :=
      processSeeds_inv files min_lines ig hmin q hq
    obtain ⟨occs0, hge20, hval0, h0eq⟩ := hg0
    have hne0 : occs0 ≠ [] := by
      intro hc
      rw [hc] at hge20
      simp at hge20
    obtain ⟨h, hhB0, i, hi, hpath, hslice⟩ :=
      @build_head_hit files ig min_lines occs0 hne0 hval0
    refine ⟨h, ?_, i, hi, hpath, ?_⟩
    · rw [hhits]
      exact (List.mem_insertionSort hitBefore).mpr (hsub0 h (by rw [← h0eq]; exact hhB0))
    · rw [hlines, hlines0, ← h0eq]
      exact hslice
  · decide

/-- Witness for C7: the general conjunct applied to Scenario C's output
block. -/
theorem c7_verbatim_content_witness :
    ∃ h ∈ (⟨["a", "b", "  x"].map String.toList,
        [⟨"f1".toList, 1, 3⟩, ⟨"f2".toList, 1, 3⟩]⟩ : DuplicateBlock).hits, ∃ i,
      i < egFilesC.length ∧ (fileAt egFilesC i).path = h.path ∧
      (⟨["a", "b", "  x"].map String.toList,
        [⟨"f1".toList, 1, 3⟩, ⟨"f2".toList, 1, 3⟩]⟩ : DuplicateBlock).lines
        = ((fileAt egFilesC i).lines.drop (h.start_line - 1)).take
            (h.end_line + 1 - h.start_line) :=
  (c7_verbatim_content egFilesC 3 true (by decide)).1 _ (by decide)

/-- C1: every output block is maximal under the active comparison mode:
its hit set cannot be extended one line upward or downward while keeping
all hits equal, including blocks whose hit sets were merged from several
seed groups (a merged hit set contains a full seed group's hit set, and
non-extendability transfers from a subset to any superset). -/
theorem c1_maximality (files : List FileData) (min_lines : Nat) (ig : Bool)
    (hmin : 1 ≤ min_lines) (hnd : NodupPaths files) :
    ∀ b ∈ detect_duplicates files min_lines ig,
      ¬extendableBackward files ig b.hits ∧ ¬extendableForward files ig b.hits := by
  intro b hb
  obtain ⟨q, hq, _, _, hhits⟩ := detect_mem hb
  obtain ⟨_, _, _, B0, hg0, _, _, hsub0⟩ :=
    processSeeds_inv files min_lines ig hmin q hq
  obtain ⟨occs0, hge20, hval0, h0eq⟩ := hg0
  have hne0 : occs0 ≠ [] := by
    intro hc
    rw [hc] at hge20
    simp at hge20
  obtain ⟨hnb, hnf⟩ := @build_not_extendable files ig min_lines occs0 hne0 hval0 hnd
  rw [h0eq] at hnb hnf
  have hsub : ∀ h ∈ B0.hits, h ∈ b.hits := by
    intro h hm
    rw [hhits]
    exact (List.mem_insertionSort hitBefore).mpr (hsub0 h hm)
  exact ⟨fun he => hnb (extendableBackward_subset hsub he),
    fun he => hnf (extendableForward_subset hsub he)⟩

/-- Witness for C1 at Scenario A. -/
theorem c1_maximality_witness :
    ¬extendableBackward egFiles false
      [⟨"file1".toList, 2, 5⟩, ⟨"file2".toList, 1, 4⟩]
    ∧ ¬extendableForward egFiles false
      [⟨"file1".toList, 2, 5⟩, ⟨"file2".toList, 1, 4⟩] :=
  c1_maximality egFiles 3 false (by decide) (by unfold NodupPaths; decide)
    ⟨["B", "C", "D", "E"].map String.toList,
      [⟨"file1".toList, 2, 5⟩, ⟨"file2".toList, 1, 4⟩]⟩ (by decide)

/-! ## Toward C3: matched-line invariants of the extension loops -/

theorem equal_line_iff {ig : Bool} {a b : Str} :
    equal_line ig a b = true ↔ norm_line ig a = norm_line ig b := by
  unfold equal_line norm_line
  cases ig with
  | false => simp
  | true => simp

theorem slice_length {l : List Str} {s n : Nat} (hb : s + n ≤ l.length) :
    ((l.drop s).take n).length = n := by
  simp only [List.length_take, List.length_drop]
  omega

theorem slice_getElem {l : List Str} {s n j : Nat} (hj : j < n) (hb : s + n ≤ l.length)
    (hx : j < ((l.drop s).take n).length) (hy : s + j < l.length) :
    ((l.drop s).take n)[j] = l[s + j] := by
  rw [List.getElem_take, List.getElem_drop]

theorem slice_getD {l : List Str} {s n j : Nat} (hj : j < n) (hb : s + n ≤ l.length) :
    ((l.drop s).take n).getD j [] = l.getD (s + j) [] := by
  have hx : j < ((l.drop s).take n).length := by
    rw [slice_length hb]
    exact hj
  have hy : s + j < l.length := by omega
  rw [List.getD_eq_getElem _ _ hx, List.getD_eq_getElem _ _ hy]
  exact slice_getElem hj hb hx hy

theorem norm_slice_eq {files : List FileData} {ig : Bool} {i1 s1 i2 s2 n : Nat}
    (h1 : s1 + n ≤ (fileAt files i1).lines.length)
    (h2 : s2 + n ≤ (fileAt files i2).lines.length)
    (he : ∀ j < n, norm_line ig (lineAt files i1 (s1 + j))
        = norm_line ig (lineAt files i2 (s2 + j))) :
    (((fileAt files i1).lines.drop s1).take n).map (norm_line ig)
      = (((fileAt files i2).lines.drop s2).take n).map (norm_line ig) := by
  apply List.ext_getElem
  · simp only [List.length_map, slice_length h1, slice_length h2]
  · intro j hj1 hj2
    simp only [List.length_map, slice_length h1] at hj1
    have hx1 : j < (((fileAt files i1).lines.drop s1).take n).length := by
      rw [slice_length h1]
      omega
    have hx2 : j < (((fileAt files i2).lines.drop s2).take n).length := by
      rw [slice_length h2]
      omega
    have hy1 : s1 + j < (fileAt files i1).lines.length := by omega
    have hy2 : s2 + j < (fileAt files i2).lines.length := by omega
    rw [List.getElem_map, List.getElem_map]
    have e1 : (((fileAt files i1).lines.drop s1).take n)[j]
        = (fileAt files i1).lines[s1 + j] := slice_getElem hj1 h1 hx1 hy1
    have e2 : (((fileAt files i2).lines.drop s2).take n)[j]
        = (fileAt files i2).lines[s2 + j] := slice_getElem hj1 h2 hx2 hy2
    rw [e1, e2]
    have g1 : (fileAt files i1).lines[s1 + j] = lineAt files i1 (s1 + j) := by
      unfold lineAt
      rw [List.getD_eq_getElem _ _ hy1]
    have g2 : (fileAt files i2).lines[s2 + j] = lineAt files i2 (s2 + j) := by
      unfold lineAt
      rw [List.getD_eq_getElem _ _ hy2]
    rw [g1, g2]
    exact he j hj1

theorem norm_slice_lines {files : List FileData} {ig : Bool} {i1 s1 i2 s2 n : Nat}
    (h1 : s1 + n ≤ (fileAt files i1).lines.length)
    (h2 : s2 + n ≤ (fileAt files i2).lines.length)
    (hmap : (((fileAt files i1).lines.drop s1).take n).map (norm_line ig)
      = (((fileAt files i2).lines.drop s2).take n).map (norm_line ig)) :
    ∀ j < n, norm_line ig (lineAt files i1 (s1 + j)) = norm_line ig (lineAt files i2 (s2 + j)) := by
  intro j hj
  have hx1 : j < (((fileAt files i1).lines.drop s1).take n).length := by
    rw [slice_length h1]
    exact hj
  have hx2 : j < (((fileAt files i2).lines.drop s2).take n).length := by
    rw [slice_length h2]
    exact hj
  have hy1 : s1 + j < (fileAt files i1).lines.length := by omega
  have hy2 : s2 + j < (fileAt files i2).lines.length := by omega
  have hg := congrArg (fun l => l.getD j ([] : Str)) hmap
  simp only at hg
  rw [List.getD_eq_getElem _ _ (by simpa using hx1),
    List.getD_eq_getElem _ _ (by simpa using hx2),
    List.getElem_map, List.getElem_map] at hg
  rw [slice_getElem hj h1 hx1 hy1, slice_getElem hj h2 hx2 hy2] at hg
  have g1 : lineAt files i1 (s1 + j) = (fileAt files i1).lines[s1 + j] := by
    unfold lineAt
    rw [List.getD_eq_getElem _ _ hy1]
  have g2 : lineAt files i2 (s2 + j) = (fileAt files i2).lines[s2 + j] := by
    unfold lineAt
    rw [List.getD_eq_getElem _ _ hy2]
  rw [g1, g2]
  exact hg

theorem not_stopB_all {files : List FileData} {ig : Bool} {occs : List Occurrence}
    (h : stopB files ig occs = false) :
    ∀ oc ∈ occs, equal_line ig (lineAt files oc.file_index (oc.start - 1))
      (lineAt files (refOcc occs).file_index ((refOcc occs).start - 1)) = true := by
  unfold stopB at h
  rw [Bool.or_eq_false_iff] at h
  have h2 := h.2
  rw [Bool.not_eq_false'] at h2
  rw [List.all_eq_true] at h2
  exact h2

theorem extendBackward_matched (files : List FileData) (ig : Bool) :
    ∀ (fuel : Nat) (occs : List Occurrence), occs ≠ [] →
      ∃ β : Nat,
        extendBackward files ig fuel occs
          = occs.map (fun oc => { file_index := oc.file_index, start := oc.start - β })
        ∧ (∀ oc ∈ occs, β ≤ oc.start)
        ∧ (∀ oc ∈ occs, ∀ j < β,
            equal_line ig (lineAt files oc.file_index (oc.start - β + j))
              (lineAt files (refOcc occs).file_index ((refOcc occs).start - β + j)) = true)
  | 0, occs, _ => ⟨0, by
      rw [extendBackward]
      conv_lhs => rw [← List.map_id occs]
      exact List.map_congr_left (fun oc _ => by simp),
    fun oc _ => by omega, fun oc _ j hj => absurd hj (by omega)⟩
  | fuel + 1, occs, hne => by
    rw [extendBackward]
    by_cases hs : stopB files ig occs = true
    · refine ⟨0, ?_, fun oc _ => by omega, fun oc _ j hj => absurd hj (by omega)⟩
      rw [if_pos hs]
      conv_lhs => rw [← List.map_id occs]
      exact List.map_congr_left (fun oc _ => by simp)
    · have hsf : stopB files ig occs = false := by
        cases hb : stopB files ig occs
        · rfl
        · exact absurd hb hs
      rw [if_neg hs]
      have hpos := not_stopB_pos hsf
      have hstep := not_stopB_all hsf
      obtain ⟨β, hmap, hbound, hmatch⟩ :=
        extendBackward_matched files ig fuel (stepB occs) (stepB_ne_nil hne)
      refine ⟨β + 1, ?_, ?_, ?_⟩
      · rw [hmap]
        unfold stepB
        rw [List.map_map]
        exact List.map_congr_left (fun oc _ => by
          simp only [Function.comp_apply, Occurrence.mk.injEq, true_and]
          omega)
      · intro oc hoc
        have h1 := hpos oc hoc
        have h2 := hbound _ (List.mem_map.mpr ⟨oc, hoc, rfl⟩)
        have h2' : β ≤ oc.start - 1 := h2
        omega
      · intro oc hoc j hj
        have h1 := hpos oc hoc
        have hrpos := hpos _ (refOcc_mem hne)
        by_cases hjb : j < β
        · have hm := hmatch _ (List.mem_map.mpr ⟨oc, hoc, rfl⟩) j hjb
          rw [refOcc_stepB_start hne, refOcc_stepB_idx hne] at hm
          have e1 : oc.start - 1 - β + j = oc.start - (β + 1) + j := by omega
          have e2 : (refOcc occs).start - 1 - β + j = (refOcc occs).start - (β + 1) + j := by
            omega
          have hm' :
              equal_line ig (lineAt files oc.file_index (oc.start - 1 - β + j))
                (lineAt files (refOcc occs).file_index
                  ((refOcc occs).start - 1 - β + j)) = true := hm
          rw [e1, e2] at hm'
          exact hm'
        · have hjeq : j = β := by omega
          have hb1 := hbound _ (List.mem_map.mpr ⟨oc, hoc, rfl⟩)
          have hb1' : β ≤ oc.start - 1 := hb1
          have hb2 := hbound _ (List.mem_map.mpr ⟨refOcc occs, refOcc_mem hne, rfl⟩)
          have hb2' : β ≤ (refOcc occs).start - 1 := hb2
          have e1 : oc.start - (β + 1) + j = oc.start - 1 := by omega
          have e2 : (refOcc occs).start - (β + 1) + j = (refOcc occs).start - 1 := by omega
          rw [e1, e2]
          exact hstep oc hoc

theorem not_stopF_all {files : List FileData} {ig : Bool} {occs : List Occurrence} {len : Nat}
    (h : stopF files ig occs len = false) :
    (refOcc occs).start + len < (fileAt files (refOcc occs).file_index).lines.length ∧
    ∀ oc ∈ occs, oc.start + len < (fileAt files oc.file_index).lines.length ∧
      equal_line ig (lineAt files oc.file_index (oc.start + len))
        (lineAt files (refOcc occs).file_index ((refOcc occs).start + len)) = true := by
  unfold stopF at h
  rw [Bool.or_eq_false_iff] at h
  obtain ⟨h1, h2⟩ := h
  rw [decide_eq_false_iff_not] at h1
  rw [Bool.not_eq_false'] at h2
  rw [List.all_eq_true] at h2
  refine ⟨by omega, ?_⟩
  intro oc hoc
  have hb := h2 oc hoc
  rw [Bool.and_eq_true] at hb
  obtain ⟨hb1, hb2⟩ := hb
  rw [decide_eq_true_eq] at hb1
  exact ⟨hb1, hb2⟩

theorem extendForward_all_bound (files : List FileData) (ig : Bool) (occs : List Occurrence) :
    ∀ (fuel len : Nat),
      (∀ oc ∈ occs, oc.start + len ≤ (fileAt files oc.file_index).lines.length) →
      ∀ oc ∈ occs, oc.start + extendForward files ig occs fuel len
        ≤ (fileAt files oc.file_index).lines.length
  | 0, len, h => by rw [extendForward]; exact h
  | fuel + 1, len, h => by
    rw [extendForward]
    by_cases hs : stopF files ig occs len = true
    · rw [if_pos hs]; exact h
    · rw [if_neg hs]
      have hsf : stopF files ig occs len = false := by
        cases hb : stopF files ig occs len
        · rfl
        · exact absurd hb hs
      have hn := not_stopF_all hsf
      exact extendForward_all_bound files ig occs fuel (len + 1)
        (fun oc hoc => by have := (hn.2 oc hoc).1; omega)

theorem extendForward_matched (files : List FileData) (ig : Bool) (occs : List Occurrence) :
    ∀ (fuel len : Nat),
      (∀ oc ∈ occs, ∀ j < len,
        equal_line ig (lineAt files oc.file_index (oc.start + j))
          (lineAt files (refOcc occs).file_index ((refOcc occs).start + j)) = true) →
      ∀ oc ∈ occs, ∀ j < extendForward files ig occs fuel len,
        equal_line ig (lineAt files oc.file_index (oc.start + j))
          (lineAt files (refOcc occs).file_index ((refOcc occs).start + j)) = true
  | 0, len, h => by rw [extendForward]; exact h
  | fuel + 1, len, h => by
    rw [extendForward]
    by_cases hs : stopF files ig occs len = true
    · rw [if_pos hs]; exact h
    · rw [if_neg hs]
      have hsf : stopF files ig occs len = false := by
        cases hb : stopF files ig occs len
        · rfl
        · exact absurd hb hs
      have hn := not_stopF_all hsf
      refine extendForward_matched files ig occs fuel (len + 1) ?_
      intro oc hoc j hj
      by_cases hjl : j < len
      · exact h oc hoc j hjl
      · have hjeq : j = len := by omega
        have e1 : oc.start + j = oc.start + len := by omega
        have e2 : (refOcc occs).start + j = (refOcc occs).start + len := by omega
        rw [e1, e2]
        exact (hn.2 oc hoc).2

theorem extendForward_ge_of_nostop (files : List FileData) (ig : Bool) (occs : List Occurrence) :
    ∀ (fuel len target : Nat), target ≤ len + fuel →
      (∀ l, len ≤ l → l < target → stopF files ig occs l = false) →
      target ≤ extendForward files ig occs fuel len
  | 0, len, target, hf, _ => by rw [extendForward]; omega
  | fuel + 1, len, target, hf, hns => by
    by_cases hlt : len < target
    · have hsf : stopF files ig occs len = false := hns len (le_refl _) hlt
      rw [extendForward]
      have hs : ¬stopF files ig occs len = true := by
        rw [hsf]
        exact Bool.false_ne_true
      rw [if_neg hs]
      exact extendForward_ge_of_nostop files ig occs fuel (len + 1) target (by omega)
        (fun l hl1 hl2 => hns l (by omega) hl2)
    · exact le_trans (by omega) (extendForward_ge files ig occs (fuel + 1) len)

theorem bucket_oc_key {files : List FileData} {min_lines : Nat} {ig : Bool}
    {k : Str} {os : List Occurrence} (hmem : (k, os) ∈ seedsOf files min_lines ig) :
    os ≠ [] ∧ ∀ oc ∈ os, oc.file_index < files.length
      ∧ oc.start + min_lines ≤ (fileAt files oc.file_index).lines.length
      ∧ k = join_lines_norm
          (((fileAt files oc.file_index).lines.drop oc.start).take min_lines) ig := by
  obtain ⟨hchar, hne⟩ := seedsFold_char (allWindows files min_lines ig) k os hmem
  refine ⟨hne, ?_⟩
  intro oc hoc
  rw [hchar] at hoc
  obtain ⟨p, hp, rfl⟩ := List.mem_map.mp hoc
  obtain ⟨hpw, hpk⟩ := List.mem_filter.mp hp
  obtain ⟨h1, h2, h3⟩ := mem_allWindows hpw
  have hk : p.1 = k := by simpa using hpk
  exact ⟨h1, h2, by rw [← hk, h3]⟩

theorem windows_complete {files : List FileData} {min_lines : Nat} {ig : Bool} {i s : Nat}
    (hi : i < files.length) (hs : s + min_lines ≤ (fileAt files i).lines.length) :
    (join_lines_norm (((fileAt files i).lines.drop s).take min_lines) ig,
      ({ file_index := i, start := s } : Occurrence)) ∈ allWindows files min_lines ig := by
  unfold allWindows
  rw [List.mem_flatMap]
  refine ⟨i, List.mem_range.mpr hi, ?_⟩
  unfold fileWindows
  rw [if_neg (by omega)]
  rw [List.mem_map]
  exact ⟨s, List.mem_range.mpr (by omega), rfl⟩

theorem bucket_matched {files : List FileData} {min_lines : Nat} {ig : Bool}
    {k : Str} {os : List Occurrence} (hmin : 1 ≤ min_lines) (hnl : NoNewlines files)
    (hmem : (k, os) ∈ seedsOf files min_lines ig) :
    ∀ oc ∈ os, ∀ j < min_lines,
      equal_line ig (lineAt files oc.file_index (oc.start + j))
        (lineAt files (refOcc os).file_index ((refOcc os).start + j)) = true := by
  obtain ⟨hne, hprop⟩ := bucket_oc_key hmem
  intro oc hoc j hj
  obtain ⟨hf1, hb1, hk1⟩ := hprop oc hoc
  obtain ⟨hf2, hb2, hk2⟩ := hprop _ (refOcc_mem hne)
  have hkk : join_lines_norm
        (((fileAt files oc.file_index).lines.drop oc.start).take min_lines) ig
      = join_lines_norm (((fileAt files (refOcc os).file_index).lines.drop
          (refOcc os).start).take min_lines) ig := by
    rw [← hk1, ← hk2]
  have hlen1 : (((fileAt files oc.file_index).lines.drop oc.start).take min_lines).length
      = min_lines := slice_length hb1
  have hlen2 : (((fileAt files (refOcc os).file_index).lines.drop
      (refOcc os).start).take min_lines).length = min_lines := slice_length hb2
  have hne1 : ((fileAt files oc.file_index).lines.drop oc.start).take min_lines ≠ [] := by
    intro hc
    rw [hc] at hlen1
    simp at hlen1
    omega
  have hne2 : ((fileAt files (refOcc os).file_index).lines.drop
      (refOcc os).start).take min_lines ≠ [] := by
    intro hc
    rw [hc] at hlen2
    simp at hlen2
    omega
  have hnl1 : ∀ x ∈ ((fileAt files oc.file_index).lines.drop oc.start).take min_lines,
      '\n' ∉ x := fun x hx =>
    hnl _ (fileAt_mem hf1) x ((List.drop_sublist _ _).subset ((List.take_sublist _ _).subset hx))
  have hnl2 : ∀ x ∈ ((fileAt files (refOcc os).file_index).lines.drop
      (refOcc os).start).take min_lines, '\n' ∉ x := fun x hx =>
    hnl _ (fileAt_mem hf2) x ((List.drop_sublist _ _).subset ((List.take_sublist _ _).subset hx))
  have hmap := join_lines_norm_inj ig hne1 hne2 hnl1 hnl2 hkk
  rw [equal_line_iff]
  exact norm_slice_lines hb1 hb2 hmap j hj

theorem group_matched {files : List FileData} {min_lines : Nat} {ig : Bool}
    {k : Str} {os : List Occurrence} (hmin : 1 ≤ min_lines) (hnl : NoNewlines files)
    (hmem : (k, os) ∈ seedsOf files min_lines ig) :
    ∃ β : Nat,
      extOccs files ig os
        = os.map (fun oc => { file_index := oc.file_index, start := oc.start - β })
      ∧ (∀ oc ∈ os, β ≤ oc.start)
      ∧ β + min_lines ≤ extLen files ig os min_lines
      ∧ (∀ oc' ∈ extOccs files ig os,
          oc'.start + extLen files ig os min_lines
            ≤ (fileAt files oc'.file_index).lines.length)
      ∧ (∀ oc' ∈ extOccs files ig os, ∀ j < extLen files ig os min_lines,
          equal_line ig (lineAt files oc'.file_index (oc'.start + j))
            (lineAt files (refOcc (extOccs files ig os)).file_index
              ((refOcc (extOccs files ig os)).start + j)) = true) := by
  obtain ⟨hne, hprop⟩ := bucket_oc_key hmem
  have hval : ValidOccs files min_lines os := fun oc hoc =>
    ⟨(hprop oc hoc).1, (hprop oc hoc).2.1⟩
  obtain ⟨β, hmap, hbound, hmatchB⟩ :=
    extendBackward_matched files ig ((refOcc os).start + 1) os hne
  have hEx : extOccs files ig os
      = os.map (fun oc => { file_index := oc.file_index, start := oc.start - β }) := hmap
  have href : refOcc (extOccs files ig os)
      = { file_index := (refOcc os).file_index, start := (refOcc os).start - β } := by
    rw [hEx]
    cases os with
    | nil => exact absurd rfl hne
    | cons a l => rfl
  have hfi' : (refOcc (extOccs files ig os)).file_index = (refOcc os).file_index := by
    rw [href]
  have hst' : (refOcc (extOccs files ig os)).start = (refOcc os).start - β := by
    rw [href]
  have hβle : β ≤ (refOcc os).start := hbound _ (refOcc_mem hne)
  have hrefb := (hprop _ (refOcc_mem hne)).2.1
  have hM12 : ∀ oc ∈ os, ∀ j < β + min_lines,
      equal_line ig (lineAt files oc.file_index (oc.start - β + j))
        (lineAt files (refOcc os).file_index ((refOcc os).start - β + j)) = true := by
    intro oc hoc j hj
    by_cases hjb : j < β
    · exact hmatchB oc hoc j hjb
    · have hseed := bucket_matched hmin hnl hmem oc hoc (j - β) (by omega)
      have e1 : oc.start - β + j = oc.start + (j - β) := by
        have := hbound oc hoc
        omega
      have e2 : (refOcc os).start - β + j = (refOcc os).start + (j - β) := by omega
      rw [e1, e2]
      exact hseed
  have hM12' : ∀ oc' ∈ extOccs files ig os, ∀ j < β + min_lines,
      equal_line ig (lineAt files oc'.file_index (oc'.start + j))
        (lineAt files (refOcc (extOccs files ig os)).file_index
          ((refOcc (extOccs files ig os)).start + j)) = true := by
    intro oc' hoc' j hj
    rw [hEx] at hoc'
    obtain ⟨oc, hoc, rfl⟩ := List.mem_map.mp hoc'
    rw [hfi', hst']
    exact hM12 oc hoc j hj
  have hβmin : β + min_lines ≤ extLen files ig os min_lines := by
    unfold extLen
    refine extendForward_ge_of_nostop files ig _ _ min_lines (β + min_lines) ?_ ?_
    · rw [hfi']
      omega
    · intro l hl1 hl2
      unfold stopF
      rw [Bool.or_eq_false_iff]
      constructor
      · rw [decide_eq_false_iff_not, hfi', hst']
        omega
      · rw [Bool.not_eq_false', List.all_eq_true]
        intro oc' hoc'
        rw [Bool.and_eq_true]
        refine ⟨?_, hM12' oc' hoc' l hl2⟩
        rw [decide_eq_true_eq]
        rw [hEx] at hoc'
        obtain ⟨oc, hoc, rfl⟩ := List.mem_map.mp hoc'
        have h1 := (hprop oc hoc).2.1
        have h2 := hbound oc hoc
        show oc.start - β + l < (fileAt files oc.file_index).lines.length
        omega
  have hbound' : ∀ oc' ∈ extOccs files ig os,
      oc'.start + extLen files ig os min_lines
        ≤ (fileAt files oc'.file_index).lines.length := by
    unfold extLen
    exact extendForward_all_bound files ig _ _ min_lines
      (fun oc' hoc' => (@extOccs_valid files ig min_lines os hval oc' hoc').2)
  have hmatch : ∀ oc' ∈ extOccs files ig os, ∀ j < extLen files ig os min_lines,
      equal_line ig (lineAt files oc'.file_index (oc'.start + j))
        (lineAt files (refOcc (extOccs files ig os)).file_index
          ((refOcc (extOccs files ig os)).start + j)) = true := by
    unfold extLen
    exact extendForward_matched files ig _ _ min_lines
      (fun oc' hoc' j hj => hM12' oc' hoc' j (by omega))
  exact ⟨β, hEx, hbound, hβmin, hbound', hmatch⟩

theorem allWindows_pairwise (files : List FileData) (min_lines : Nat) (ig : Bool) :
    List.Pairwise (fun p q : Str × Occurrence =>
      p.2.file_index < q.2.file_index
      ∨ (p.2.file_index = q.2.file_index ∧ p.2.start < q.2.start))
      (allWindows files min_lines ig) := by
  unfold allWindows
  rw [List.pairwise_flatMap]
  constructor
  · intro i hi
    unfold fileWindows
    by_cases hlt : (fileAt files i).lines.length < min_lines
    · rw [if_pos hlt]
      exact List.Pairwise.nil
    · rw [if_neg hlt, List.pairwise_map]
      refine List.Pairwise.imp ?_ (List.pairwise_lt_range _)
      intro s t hst
      exact Or.inr ⟨rfl, hst⟩
  · refine List.Pairwise.imp ?_ (List.pairwise_lt_range _)
    intro i1 i2 h12 x hx y hy
    rw [(mem_fileWindows hx).1, (mem_fileWindows hy).1]
    exact Or.inl h12

theorem bucket_pairwise {files : List FileData} {min_lines : Nat} {ig : Bool}
    {k : Str} {os : List Occurrence} (hmem : (k, os) ∈ seedsOf files min_lines ig) :
    List.Pairwise (fun a b : Occurrence =>
      a.file_index < b.file_index ∨ (a.file_index = b.file_index ∧ a.start < b.start)) os := by
  obtain ⟨hchar, _⟩ := seedsFold_char (allWindows files min_lines ig) k os hmem
  rw [hchar, List.pairwise_map]
  exact (allWindows_pairwise files min_lines ig).filter _

theorem extOccs_pairwise {files : List FileData} {min_lines : Nat} {ig : Bool}
    {k : Str} {os : List Occurrence} (hmin : 1 ≤ min_lines) (hnl : NoNewlines files)
    (hmem : (k, os) ∈ seedsOf files min_lines ig) :
    List.Pairwise (fun a b : Occurrence =>
      a.file_index < b.file_index ∨ (a.file_index = b.file_index ∧ a.start < b.start))
      (extOccs files ig os) := by
  obtain ⟨β, hEx, hbound, _, _, _⟩ := group_matched hmin hnl hmem
  rw [hEx, List.pairwise_map]
  refine List.Pairwise.imp_of_mem ?_ (bucket_pairwise hmem)
  intro a b ha hb hab
  rcases hab with h | ⟨hfe, hst⟩
  · exact Or.inl h
  · refine Or.inr ⟨hfe, ?_⟩
    have hba := hbound a ha
    have hbb := hbound b hb
    show a.start - β < b.start - β
    omega

theorem eq_of_pairwise_of_mem_iff {α : Type _} {R : α → α → Prop}
    (hasym : ∀ a b, R a b → R b a → False) :
    ∀ (l1 l2 : List α), List.Pairwise R l1 → List.Pairwise R l2 →
      (∀ x, x ∈ l1 ↔ x ∈ l2) → l1 = l2
  | [], [], _, _, _ => rfl
  | [], b :: t2, _, _, hm =>
    absurd ((hm b).mpr (List.mem_cons_self b t2)) (List.not_mem_nil b)
  | a :: t1, [], _, _, hm =>
    absurd ((hm a).mp (List.mem_cons_self a t1)) (List.not_mem_nil a)
  | a :: t1, b :: t2, h1, h2, hm => by
    have hab : a = b := by
      rcases List.mem_cons.mp ((hm a).mp (List.mem_cons_self a t1)) with h | h
      · exact h
      · rcases List.mem_cons.mp ((hm b).mpr (List.mem_cons_self b t2)) with h' | h'
        · exact h'.symm
        · exact (hasym a b (List.rel_of_pairwise_cons h1 h')
            (List.rel_of_pairwise_cons h2 h)).elim
    subst hab
    have htail : ∀ x, x ∈ t1 ↔ x ∈ t2 := by
      intro x
      constructor
      · intro hx
        rcases List.mem_cons.mp ((hm x).mp (List.mem_cons_of_mem a hx)) with h | h
        · subst h
          exact (hasym x x (List.rel_of_pairwise_cons h1 hx)
            (List.rel_of_pairwise_cons h1 hx)).elim
        · exact h
      · intro hx
        rcases List.mem_cons.mp ((hm x).mpr (List.mem_cons_of_mem a hx)) with h | h
        · subst h
          exact (hasym x x (List.rel_of_pairwise_cons h2 hx)
            (List.rel_of_pairwise_cons h2 hx)).elim
        · exact h
    rw [eq_of_pairwise_of_mem_iff hasym t1 t2 (List.Pairwise.of_cons h1)
      (List.Pairwise.of_cons h2) htail]

theorem extOccs_char {files : List FileData} {min_lines : Nat} {ig : Bool}
    {k : Str} {os : List Occurrence} (hmin : 1 ≤ min_lines) (hnl : NoNewlines files)
    (hmem : (k, os) ∈ seedsOf files min_lines ig) :
    ∀ x : Occurrence, x ∈ extOccs files ig os ↔
      (x.file_index < files.length
       ∧ x.start + extLen files ig os min_lines ≤ (fileAt files x.file_index).lines.length
       ∧ (((fileAt files x.file_index).lines.drop x.start).take
            (extLen files ig os min_lines)).map (norm_line ig)
           = (build_maximal_block files os min_lines ig).lines.map (norm_line ig)) := by
  obtain ⟨hne, hprop⟩ := bucket_oc_key hmem
  have hval : ValidOccs files min_lines os := fun oc hoc =>
    ⟨(hprop oc hoc).1, (hprop oc hoc).2.1⟩
  obtain ⟨β, hEx, hbound, hβmin, hbound2, hmatch⟩ := group_matched hmin hnl hmem
  have hne2 : extOccs files ig os ≠ [] := extOccs_ne_nil hne
  have hrefmem : refOcc (extOccs files ig os) ∈ extOccs files ig os := refOcc_mem hne2
  have hrefbd := hbound2 _ hrefmem
  have hlines : (build_maximal_block files os min_lines ig).lines
      = ((fileAt files (refOcc (extOccs files ig os)).file_index).lines.drop
          (refOcc (extOccs files ig os)).start).take (extLen files ig os min_lines) := by
    rw [build_maximal_block_eq]
  have href : refOcc (extOccs files ig os)
      = { file_index := (refOcc os).file_index, start := (refOcc os).start - β } := by
    rw [hEx]
    cases os with
    | nil => exact absurd rfl hne
    | cons a l => rfl
  have hreffi : (refOcc (extOccs files ig os)).file_index = (refOcc os).file_index := by
    rw [href]
  have hrefst : (refOcc (extOccs files ig os)).start = (refOcc os).start - β := by
    rw [href]
  have hβle : β ≤ (refOcc os).start := hbound _ (refOcc_mem hne)
  intro x
  constructor
  · intro hx
    refine ⟨(@extOccs_valid files ig min_lines os hval x hx).1, hbound2 x hx, ?_⟩
    rw [hlines]
    exact norm_slice_eq (hbound2 x hx) hrefbd (fun j hj => by
      have heq := hmatch x hx j hj
      rw [equal_line_iff] at heq
      exact heq)
  · rintro ⟨hxf, hxb, hxs⟩
    have hslice : (((fileAt files x.file_index).lines.drop x.start).take
          (extLen files ig os min_lines)).map (norm_line ig)
        = (((fileAt files (refOcc (extOccs files ig os)).file_index).lines.drop
            (refOcc (extOccs files ig os)).start).take
              (extLen files ig os min_lines)).map (norm_line ig) := by
      rw [← hlines]
      exact hxs
    have hePer := norm_slice_lines hxb hrefbd hslice
    have hwbound : x.start + β + min_lines ≤ (fileAt files x.file_index).lines.length := by
      omega
    have hrefb := (hprop _ (refOcc_mem hne)).2.1
    have hkref := (hprop _ (refOcc_mem hne)).2.2
    have heWin : ∀ j < min_lines,
        norm_line ig (lineAt files x.file_index (x.start + β + j))
          = norm_line ig (lineAt files (refOcc os).file_index ((refOcc os).start + j)) := by
      intro j hj
      have e1 : x.start + β + j = x.start + (β + j) := by omega
      have e2 : (refOcc os).start + j
          = (refOcc (extOccs files ig os)).start + (β + j) := by
        rw [hrefst]
        omega
      rw [e1, e2, ← hreffi]
      exact hePer (β + j) (by omega)
    have hmapW : (((fileAt files x.file_index).lines.drop (x.start + β)).take
          min_lines).map (norm_line ig)
        = (((fileAt files (refOcc os).file_index).lines.drop
            ((refOcc os).start)).take min_lines).map (norm_line ig) :=
      norm_slice_eq hwbound hrefb heWin
    have hkey : join_lines_norm
          (((fileAt files x.file_index).lines.drop (x.start + β)).take min_lines) ig = k := by
      rw [hkref]
      unfold join_lines_norm
      exact congrArg joinNL hmapW
    have hW : (k, ({ file_index := x.file_index, start := x.start + β } : Occurrence))
        ∈ allWindows files min_lines ig := by
      rw [← hkey]
      exact windows_complete hxf hwbound
    obtain ⟨hchar, _⟩ := seedsFold_char (allWindows files min_lines ig) k os hmem
    have hwmem : ({ file_index := x.file_index, start := x.start + β } : Occurrence) ∈ os := by
      rw [hchar]
      exact List.mem_map.mpr
        ⟨(k, { file_index := x.file_index, start := x.start + β }),
          List.mem_filter.mpr ⟨hW, by simp⟩, rfl⟩
    rw [hEx]
    refine List.mem_map.mpr ⟨{ file_index := x.file_index, start := x.start + β }, hwmem, ?_⟩
    show ({ file_index := x.file_index, start := x.start + β - β } : Occurrence) = x
    rw [Nat.add_sub_cancel]

theorem build_eq_of_key_eq {files : List FileData} {min_lines : Nat} {ig : Bool}
    {k1 k2 : Str} {os1 os2 : List Occurrence} (hmin : 1 ≤ min_lines) (hnl : NoNewlines files)
    (h1 : (k1, os1) ∈ seedsOf files min_lines ig)
    (h2 : (k2, os2) ∈ seedsOf files min_lines ig)
    (hkey : join_lines_norm (build_maximal_block files os1 min_lines ig).lines ig
          = join_lines_norm (build_maximal_block files os2 min_lines ig).lines ig) :
    build_maximal_block files os1 min_lines ig
      = build_maximal_block files os2 min_lines ig := by
  obtain ⟨hne1, hprop1⟩ := bucket_oc_key h1
  obtain ⟨hne2, hprop2⟩ := bucket_oc_key h2
  have hval1 : ValidOccs files min_lines os1 := fun oc hoc =>
    ⟨(hprop1 oc hoc).1, (hprop1 oc hoc).2.1⟩
  have hval2 : ValidOccs files min_lines os2 := fun oc hoc =>
    ⟨(hprop2 oc hoc).1, (hprop2 oc hoc).2.1⟩
  have hb1ne := @build_lines_ne_nil files ig min_lines os1 hmin hne1 hval1
  have hb2ne := @build_lines_ne_nil files ig min_lines os2 hmin hne2 hval2
  have hb1nl := @build_lines_no_newline files ig min_lines os1 hne1 hval1 hnl
  have hb2nl := @build_lines_no_newline files ig min_lines os2 hne2 hval2 hnl
  have hmapN : (build_maximal_block files os1 min_lines ig).lines.map (norm_line ig)
      = (build_maximal_block files os2 min_lines ig).lines.map (norm_line ig) :=
    join_lines_norm_inj ig hb1ne hb2ne hb1nl hb2nl hkey
  have hL1 := @build_lines_length files ig min_lines os1 hne1 hval1
  have hL2 := @build_lines_length files ig min_lines os2 hne2 hval2
  have hLeq : extLen files ig os1 min_lines = extLen files ig os2 min_lines := by
    have hlen := congrArg List.length hmapN
    simp only [List.length_map] at hlen
    omega
  have hmm : ∀ x, x ∈ extOccs files ig os1 ↔ x ∈ extOccs files ig os2 := by
    intro x
    rw [extOccs_char hmin hnl h1 x, extOccs_char hmin hnl h2 x, hLeq, hmapN]
  have hOeq : extOccs files ig os1 = extOccs files ig os2 :=
    eq_of_pairwise_of_mem_iff
      (fun a b hab hba => by
        rcases hab with h | ⟨he, hs⟩ <;> rcases hba with h' | ⟨he', hs'⟩ <;> omega)
      _ _ (extOccs_pairwise hmin hnl h1) (extOccs_pairwise hmin hnl h2) hmm
  rw [build_maximal_block_eq files os1 min_lines ig,
    build_maximal_block_eq files os2 min_lines ig, hOeq, hLeq]

theorem fileAt_path_inj {files : List FileData} (hnd : NodupPaths files) {i j : Nat}
    (hi : i < files.length) (hj : j < files.length)
    (hp : (fileAt files i).path = (fileAt files j).path) : i = j := by
  have hi2 : i < (files.map FileData.path).length := by simpa using hi
  have hj2 : j < (files.map FileData.path).length := by simpa using hj
  have key : (List.map FileData.path files)[i] = (List.map FileData.path files)[j] := by
    rw [List.getElem_map, List.getElem_map]
    have e1 : files[i] = fileAt files i := by
      unfold fileAt
      rw [List.getD_eq_getElem _ _ hi]
    have e2 : files[j] = fileAt files j := by
      unfold fileAt
      rw [List.getD_eq_getElem _ _ hj]
    rw [e1, e2, hp]
  exact (@List.Nodup.getElem_inj_iff _ _ hnd i hi2 j hj2).mp key

theorem build_hits_nodup {files : List FileData} {min_lines : Nat} {ig : Bool}
    {k : Str} {os : List Occurrence} (hmin : 1 ≤ min_lines) (hnl : NoNewlines files)
    (hnd : NodupPaths files) (hmem : (k, os) ∈ seedsOf files min_lines ig) :
    (build_maximal_block files os min_lines ig).hits.Nodup := by
  obtain ⟨hne, hprop⟩ := bucket_oc_key hmem
  have hval : ValidOccs files min_lines os := fun oc hoc =>
    ⟨(hprop oc hoc).1, (hprop oc hoc).2.1⟩
  have hOval := @extOccs_valid files ig min_lines os hval
  have hOnodup : (extOccs files ig os).Nodup := by
    refine (extOccs_pairwise hmin hnl hmem).imp ?_
    intro a b hab he
    rw [he] at hab
    rcases hab with h | ⟨_, h⟩ <;> omega
  rw [build_maximal_block_eq]
  refine List.Nodup.map_on ?_ hOnodup
  intro x hx y hy hxy
  have hxv := hOval x hx
  have hyv := hOval y hy
  have hpath : (fileAt files x.file_index).path = (fileAt files y.file_index).path :=
    congrArg Hit.path hxy
  have hstart : x.start + 1 = y.start + 1 := congrArg Hit.start_line hxy
  have hfi : x.file_index = y.file_index := fileAt_path_inj hnd hxv.1 hyv.1 hpath
  have hst : x.start = y.start := by omega
  cases x with
  | mk xf xs =>
    cases y with
    | mk yf ys =>
      simp only [Occurrence.mk.injEq]
      exact ⟨hfi, hst⟩

theorem foldl_insertHit_append : ∀ (hs : List Hit) (a : Agg),
    (∀ h ∈ hs, hitKey h ∉ a.hit_keys) → hs.Nodup →
    hs.foldl insertHit a
      = { lines := a.lines, hit_keys := a.hit_keys ++ hs.map hitKey, hits := a.hits ++ hs }
  | [], a, _, _ => by simp
  | h :: hs, a, hnot, hnd => by
    rw [List.foldl_cons]
    have hne0 : hitKey h ∉ a.hit_keys := hnot h (List.mem_cons_self _ _)
    have hstep : insertHit a h
        = { lines := a.lines, hit_keys := a.hit_keys ++ [hitKey h], hits := a.hits ++ [h] } := by
      unfold insertHit
      rw [if_neg hne0]
    have hnd2 := (List.nodup_cons.mp hnd).2
    have hh := (List.nodup_cons.mp hnd).1
    have hnot2 : ∀ h' ∈ hs, hitKey h'
        ∉ ({ lines := a.lines, hit_keys := a.hit_keys ++ [hitKey h],
              hits := a.hits ++ [h] } : Agg).hit_keys := by
      intro h' hh'
      show hitKey h' ∉ a.hit_keys ++ [hitKey h]
      rw [List.mem_append, List.mem_singleton]
      push_neg
      refine ⟨hnot h' (List.mem_cons_of_mem _ hh'), ?_⟩
      intro hc
      exact hh (hitKey_inj hc ▸ hh')
    rw [hstep, foldl_insertHit_append hs _ hnot2 hnd2]
    simp [List.append_assoc]

theorem mergeBlock_fresh {b : DuplicateBlock} (hnd : b.hits.Nodup) :
    mergeBlock { lines := [], hit_keys := [], hits := [] } b
      = { lines := b.lines, hit_keys := b.hits.map hitKey, hits := b.hits } := by
  unfold mergeBlock
  rw [foldl_insertHit_append b.hits _ (fun h _ => List.not_mem_nil _) hnd]
  simp

theorem foldl_insertHit_noop : ∀ (hs : List Hit) (a : Agg),
    (∀ h ∈ hs, hitKey h ∈ a.hit_keys) → hs.foldl insertHit a = a
  | [], _, _ => rfl
  | h :: hs, a, hin => by
    rw [List.foldl_cons]
    have hstep : insertHit a h = a := by
      unfold insertHit
      rw [if_pos (hin h (List.mem_cons_self _ _))]
    rw [hstep]
    exact foldl_insertHit_noop hs a (fun h' hh' => hin h' (List.mem_cons_of_mem _ hh'))

theorem mergeBlock_noop {a : Agg} {b : DuplicateBlock} (hl : a.lines ≠ [])
    (hin : ∀ h ∈ b.hits, hitKey h ∈ a.hit_keys) : mergeBlock a b = a := by
  unfold mergeBlock
  rw [if_neg (by simp [hl] : ¬a.lines.isEmpty = true)]
  exact foldl_insertHit_noop b.hits a hin

theorem addAgg_keys : ∀ (m : List (Str × Agg)) (ck : Str) (b : DuplicateBlock),
    (addAgg m ck b).map Prod.fst =
      if ck ∈ m.map Prod.fst then m.map Prod.fst else m.map Prod.fst ++ [ck]
  | [], ck, b => by simp [addAgg]
  | (k0, a0) :: rest, ck, b => by
    unfold addAgg
    by_cases hb : k0 = ck
    · subst hb
      rw [if_pos (by simp)]
      simp
    · rw [if_neg (by simpa using hb)]
      simp only [List.map_cons]
      rw [addAgg_keys rest ck b]
      by_cases hm : ck ∈ rest.map Prod.fst
      · rw [if_pos hm, if_pos (by simp [hm])]
      · rw [if_neg hm, if_neg (by simp [hm, Ne.symm hb])]
        simp

theorem addAgg_keys_nodup {m : List (Str × Agg)} {ck : Str} {b : DuplicateBlock}
    (h : (m.map Prod.fst).Nodup) : ((addAgg m ck b).map Prod.fst).Nodup := by
  rw [addAgg_keys]
  by_cases hm : ck ∈ m.map Prod.fst
  · rwa [if_pos hm]
  · rw [if_neg hm]
    simp [List.nodup_append, h, hm]

theorem addAgg_key_self (m : List (Str × Agg)) (ck : Str) (b : DuplicateBlock) :
    ck ∈ (addAgg m ck b).map Prod.fst := by
  rw [addAgg_keys]
  by_cases hm : ck ∈ m.map Prod.fst
  · rwa [if_pos hm]
  · rw [if_neg hm]
    simp

theorem addAgg_key_mono {m : List (Str × Agg)} {k : Str} (ck : Str) (b : DuplicateBlock)
    (h : k ∈ m.map Prod.fst) : k ∈ (addAgg m ck b).map Prod.fst := by
  rw [addAgg_keys]
  by_cases hm : ck ∈ m.map Prod.fst
  · rwa [if_pos hm]
  · rw [if_neg hm]
    exact List.mem_append.mpr (Or.inl h)

theorem processSeeds_sound (files : List FileData) (min_lines : Nat) (ig : Bool)
    (hmin : 1 ≤ min_lines) (hnl : NoNewlines files) (hnd : NodupPaths files)
    (s : List (Str × List Occurrence))
    (hsub : ∀ p ∈ s, p ∈ seedsOf files min_lines ig) :
    ((processSeeds files min_lines ig s).map Prod.fst).Nodup
    ∧ ∀ q ∈ processSeeds files min_lines ig s, ∃ k os,
        (k, os) ∈ seedsOf files min_lines ig ∧ 2 ≤ os.length
        ∧ q.1 = join_lines_norm (build_maximal_block files os min_lines ig).lines ig
        ∧ q.2 = { lines := (build_maximal_block files os min_lines ig).lines,
                  hit_keys := (build_maximal_block files os min_lines ig).hits.map hitKey,
                  hits := (build_maximal_block files os min_lines ig).hits } := by
  unfold processSeeds
  refine foldl_inv (P := fun m : List (Str × Agg) =>
      ((m.map Prod.fst).Nodup
      ∧ ∀ q ∈ m, ∃ k os,
          (k, os) ∈ seedsOf files min_lines ig ∧ 2 ≤ os.length
          ∧ q.1 = join_lines_norm (build_maximal_block files os min_lines ig).lines ig
          ∧ q.2 = { lines := (build_maximal_block files os min_lines ig).lines,
                    hit_keys := (build_maximal_block files os min_lines ig).hits.map hitKey,
                    hits := (build_maximal_block files os min_lines ig).hits }))
    ⟨by simp, by intro q hq; exact absurd hq (List.not_mem_nil _)⟩ ?_
  intro p hp acc hacc
  obtain ⟨hK, hQ⟩ := hacc
  by_cases hlen : p.2.length < 2
  · rw [if_pos hlen]
    exact ⟨hK, hQ⟩
  · rw [if_neg hlen]
    have hpm : (p.1, p.2) ∈ seedsOf files min_lines ig := hsub p hp
    have hge2 : 2 ≤ p.2.length := by omega
    refine ⟨addAgg_keys_nodup hK, ?_⟩
    refine addAgg_pres (P := fun ck a => ∃ k os,
        (k, os) ∈ seedsOf files min_lines ig ∧ 2 ≤ os.length
        ∧ ck = join_lines_norm (build_maximal_block files os min_lines ig).lines ig
        ∧ a = { lines := (build_maximal_block files os min_lines ig).lines,
                hit_keys := (build_maximal_block files os min_lines ig).hits.map hitKey,
                hits := (build_maximal_block files os min_lines ig).hits }) acc _ _ hQ ?_ ?_
    · exact ⟨p.1, p.2, hpm, hge2, rfl,
        mergeBlock_fresh (build_hits_nodup hmin hnl hnd hpm)⟩
    · rintro a ⟨k0, os0, hm0, hge0, hck0, ha0⟩
      have hkeq : join_lines_norm (build_maximal_block files os0 min_lines ig).lines ig
          = join_lines_norm (build_maximal_block files p.2 min_lines ig).lines ig := hck0.symm
      have hbeq := build_eq_of_key_eq hmin hnl hm0 hpm hkeq
      refine ⟨k0, os0, hm0, hge0, hck0, ?_⟩
      rw [ha0, ← hbeq]
      obtain ⟨hne0, hprop0⟩ := bucket_oc_key hm0
      have hval0 : ValidOccs files min_lines os0 := fun oc hoc =>
        ⟨(hprop0 oc hoc).1, (hprop0 oc hoc).2.1⟩
      exact mergeBlock_noop (@build_lines_ne_nil files ig min_lines os0 hmin hne0 hval0)
        (fun h hh => List.mem_map_of_mem hitKey hh)

theorem processSeedsFold_keys_mono (files : List FileData) (min_lines : Nat) (ig : Bool) :
    ∀ (s : List (Str × List Occurrence)) (m : List (Str × Agg)) (k : Str),
      k ∈ m.map Prod.fst →
      k ∈ (s.foldl (fun acc q =>
          if q.2.length < 2 then acc
          else addAgg acc
            (join_lines_norm (build_maximal_block files q.2 min_lines ig).lines ig)
            (build_maximal_block files q.2 min_lines ig)) m).map Prod.fst
  | [], _, _, h => h
  | p :: s, m, k, h => by
    rw [List.foldl_cons]
    refine processSeedsFold_keys_mono files min_lines ig s _ k ?_
    by_cases hlen : p.2.length < 2
    · rw [if_pos hlen]
      exact h
    · rw [if_neg hlen]
      exact addAgg_key_mono _ _ h

theorem processSeedsFold_key_complete (files : List FileData) (min_lines : Nat) (ig : Bool) :
    ∀ (s : List (Str × List Occurrence)) (m : List (Str × Agg)) (p : Str × List Occurrence),
      p ∈ s → 2 ≤ p.2.length →
      join_lines_norm (build_maximal_block files p.2 min_lines ig).lines ig
        ∈ (s.foldl (fun acc q =>
            if q.2.length < 2 then acc
            else addAgg acc
              (join_lines_norm (build_maximal_block files q.2 min_lines ig).lines ig)
              (build_maximal_block files q.2 min_lines ig)) m).map Prod.fst
  | [], _, p, hp, _ => absurd hp (List.not_mem_nil p)
  | q :: s, m, p, hp, h2 => by
    rw [List.foldl_cons]
    rcases List.mem_cons.mp hp with rfl | hps
    · refine processSeedsFold_keys_mono files min_lines ig s _ _ ?_
      rw [if_neg (by omega)]
      exact addAgg_key_self _ _ _
    · exact processSeedsFold_key_complete files min_lines ig s _ p hps h2

theorem processSeeds_mem_of_mem (files : List FileData) (min_lines : Nat) (ig : Bool)
    (hmin : 1 ≤ min_lines) (hnl : NoNewlines files) (hnd : NodupPaths files)
    {s1 s2 : List (Str × List Occurrence)}
    (hsub1 : ∀ p ∈ s1, p ∈ seedsOf files min_lines ig)
    (hsub2 : ∀ p ∈ s2, p ∈ seedsOf files min_lines ig)
    (hcov2 : ∀ p ∈ seedsOf files min_lines ig, p ∈ s2) :
    ∀ q ∈ processSeeds files min_lines ig s1, q ∈ processSeeds files min_lines ig s2 := by
  intro q hq
  obtain ⟨hK1, hQ1⟩ := processSeeds_sound files min_lines ig hmin hnl hnd s1 hsub1
  obtain ⟨hK2, hQ2⟩ := processSeeds_sound files min_lines ig hmin hnl hnd s2 hsub2
  obtain ⟨k, os, hmem, hge2, hck, hagg⟩ := hQ1 q hq
  have hkey2 : q.1 ∈ (processSeeds files min_lines ig s2).map Prod.fst := by
    rw [hck]
    exact processSeedsFold_key_complete files min_lines ig s2 [] (k, os)
      (hcov2 _ hmem) hge2
  obtain ⟨q2, hq2, hq2k⟩ := List.mem_map.mp hkey2
  obtain ⟨k2, os2, hmem2, hge22, hck2, hagg2⟩ := hQ2 q2 hq2
  have hkk : join_lines_norm (build_maximal_block files os2 min_lines ig).lines ig
      = join_lines_norm (build_maximal_block files os min_lines ig).lines ig := by
    rw [← hck2, hq2k, hck]
  have hbeq := build_eq_of_key_eq hmin hnl hmem2 hmem hkk
  have hqq : q = q2 := by
    refine Prod.ext hq2k.symm ?_
    rw [hagg, hagg2, hbeq]
  rw [hqq]
  exact hq2

theorem processSeeds_perm (files : List FileData) (min_lines : Nat) (ig : Bool)
    (hmin : 1 ≤ min_lines) (hnl : NoNewlines files) (hnd : NodupPaths files)
    {s1 s2 : List (Str × List Occurrence)}
    (hp1 : s1.Perm (seedsOf files min_lines ig))
    (hp2 : s2.Perm (seedsOf files min_lines ig)) :
    (processSeeds files min_lines ig s1).Perm (processSeeds files min_lines ig s2) := by
  have hsub1 : ∀ p ∈ s1, p ∈ seedsOf files min_lines ig := fun p hp => hp1.mem_iff.mp hp
  have hsub2 : ∀ p ∈ s2, p ∈ seedsOf files min_lines ig := fun p hp => hp2.mem_iff.mp hp
  have hcov1 : ∀ p ∈ seedsOf files min_lines ig, p ∈ s1 := fun p hp => hp1.mem_iff.mpr hp
  have hcov2 : ∀ p ∈ seedsOf files min_lines ig, p ∈ s2 := fun p hp => hp2.mem_iff.mpr hp
  have hK1 := (processSeeds_sound files min_lines ig hmin hnl hnd s1 hsub1).1
  have hK2 := (processSeeds_sound files min_lines ig hmin hnl hnd s2 hsub2).1
  rw [List.perm_ext_iff_of_nodup (List.Nodup.of_map _ hK1) (List.Nodup.of_map _ hK2)]
  intro q
  constructor
  · exact processSeeds_mem_of_mem files min_lines ig hmin hnl hnd hsub1 hsub2 hcov2 q
  · exact processSeeds_mem_of_mem files min_lines ig hmin hnl hnd hsub2 hsub1 hcov1 q

theorem find_ord_perm (files : List FileData) (min_lines : Nat) (ig : Bool)
    (hmin : 1 ≤ min_lines) (hnl : NoNewlines files) (hnd : NodupPaths files)
    {s1 s2 : List (Str × List Occurrence)}
    (hp1 : s1.Perm (seedsOf files min_lines ig))
    (hp2 : s2.Perm (seedsOf files min_lines ig)) :
    (find_repeated_blocks_ord files min_lines ig s1).Perm
      (find_repeated_blocks_ord files min_lines ig s2) := by
  unfold find_repeated_blocks_ord collectBlocks
  exact List.Perm.map _
    (List.Perm.filter _ (processSeeds_perm files min_lines ig hmin hnl hnd hp1 hp2))

theorem find_ord_sound (files : List FileData) (min_lines : Nat) (ig : Bool)
    (hmin : 1 ≤ min_lines) (hnl : NoNewlines files) (hnd : NodupPaths files)
    {s : List (Str × List Occurrence)}
    (hsub : ∀ p ∈ s, p ∈ seedsOf files min_lines ig) :
    ∀ b ∈ find_repeated_blocks_ord files min_lines ig s, ∃ k os,
      (k, os) ∈ seedsOf files min_lines ig ∧ 2 ≤ os.length
      ∧ b = build_maximal_block files os min_lines ig := by
  intro b hb
  unfold find_repeated_blocks_ord collectBlocks at hb
  obtain ⟨q, hqf, rfl⟩ := List.mem_map.mp hb
  have hq := (List.mem_filter.mp hqf).1
  obtain ⟨hK, hQ⟩ := processSeeds_sound files min_lines ig hmin hnl hnd s hsub
  obtain ⟨k, os, hmem, hge2, hck, hagg⟩ := hQ q hq
  refine ⟨k, os, hmem, hge2, ?_⟩
  rw [hagg]

theorem eq_of_perm_of_pairwise_anti {α : Type _} {r : α → α → Prop} :
    ∀ (l1 l2 : List α), l1.Perm l2 →
      (∀ a ∈ l1, ∀ b ∈ l2, r a b → r b a → a = b) →
      List.Pairwise r l1 → List.Pairwise r l2 → l1 = l2
  | [], l2, hp, _, _, _ => (List.Perm.eq_nil hp.symm).symm
  | a :: t1, [], hp, _, _, _ => absurd (List.Perm.eq_nil hp) (List.cons_ne_nil a t1)
  | a :: t1, b :: t2, hp, hanti, h1, h2 => by
    have hab : a = b := by
      by_cases h : a = b
      · exact h
      · have ha2 : a ∈ b :: t2 := hp.mem_iff.mp (List.mem_cons_self a t1)
        have hb1 : b ∈ a :: t1 := hp.mem_iff.mpr (List.mem_cons_self b t2)
        have ha2m : a ∈ t2 := by
          rcases List.mem_cons.mp ha2 with h2m | h2m
          · exact absurd h2m h
          · exact h2m
        have hb1m : b ∈ t1 := by
          rcases List.mem_cons.mp hb1 with h1m | h1m
          · exact absurd h1m.symm h
          · exact h1m
        exact hanti a (List.mem_cons_self a t1) b (List.mem_cons_self b t2)
          (List.rel_of_pairwise_cons h1 hb1m) (List.rel_of_pairwise_cons h2 ha2m)
    subst hab
    have htp : t1.Perm t2 := hp.cons_inv
    have hanti2 : ∀ x ∈ t1, ∀ y ∈ t2, r x y → r y x → x = y := fun x hx y hy =>
      hanti x (List.mem_cons_of_mem a hx) y (List.mem_cons_of_mem a hy)
    rw [eq_of_perm_of_pairwise_anti t1 t2 htp hanti2 (List.Pairwise.of_cons h1)
      (List.Pairwise.of_cons h2)]

theorem detect_ord_eq (files : List FileData) (min_lines : Nat) (ig : Bool)
    (hmin : 1 ≤ min_lines) (hnl : NoNewlines files) (hnd : NodupPaths files)
    {s1 s2 : List (Str × List Occurrence)}
    (hp1 : s1.Perm (seedsOf files min_lines ig))
    (hp2 : s2.Perm (seedsOf files min_lines ig)) :
    detect_duplicates_ord files min_lines ig s1
      = detect_duplicates_ord files min_lines ig s2 := by
  unfold detect_duplicates_ord
  have hsub1 : ∀ p ∈ s1, p ∈ seedsOf files min_lines ig := fun p hp => hp1.mem_iff.mp hp
  have hsub2 : ∀ p ∈ s2, p ∈ seedsOf files min_lines ig := fun p hp => hp2.mem_iff.mp hp
  have hfp := find_ord_perm files min_lines ig hmin hnl hnd hp1 hp2
  have hperm : (List.insertionSort blockBefore
        (find_repeated_blocks_ord files min_lines ig s1)).Perm
      (List.insertionSort blockBefore (find_repeated_blocks_ord files min_lines ig s2)) :=
    ((List.perm_insertionSort blockBefore _).trans hfp).trans
      (List.perm_insertionSort blockBefore _).symm
  have hanti : ∀ a ∈ List.insertionSort blockBefore
        (find_repeated_blocks_ord files min_lines ig s1),
      ∀ b ∈ List.insertionSort blockBefore
        (find_repeated_blocks_ord files min_lines ig s2),
      blockBefore a b → blockBefore b a → a = b := by
    intro a ha b hb hab hba
    have ham := (List.mem_insertionSort blockBefore).mp ha
    have hbm := (List.mem_insertionSort blockBefore).mp hb
    obtain ⟨k1, os1, hm1, hg1, rfl⟩ :=
      find_ord_sound files min_lines ig hmin hnl hnd hsub1 a ham
    obtain ⟨k2, os2, hm2, hg2, rfl⟩ :=
      find_ord_sound files min_lines ig hmin hnl hnd hsub2 b hbm
    unfold blockBefore at hab hba
    rcases blockLess_trichotomy (build_maximal_block files os1 min_lines ig)
        (build_maximal_block files os2 min_lines ig) with h | h | ⟨_, _, he⟩
    · rw [hba] at h
      exact (Bool.false_ne_true h).elim
    · rw [hab] at h
      exact (Bool.false_ne_true h).elim
    · exact build_eq_of_key_eq hmin hnl hm1 hm2 (congrArg (fun l => join_lines_norm l ig) he)
  rw [eq_of_perm_of_pairwise_anti _ _ hperm hanti
    (List.sorted_insertionSort blockBefore _) (List.sorted_insertionSort blockBefore _)]

/-- C3 (determinism, iteration-order independence): under the program's
own guarantees — `min_lines ≥ 1`, newline-free stored lines (`getline`
splitting) and pairwise-distinct file paths (the `seen` set of
`expand_globs`) — the output of the pipeline does not depend on the
implementation-defined iteration order of the seed `unordered_map`:
visiting the seed buckets in any two orders (any permutations `s1`, `s2`
of the seed index) produces identical ordered output, which moreover
equals the output of `detect_duplicates` itself.  In particular the
stored `lines` representative of a merged content group is independent of
which contributing seed group happened to be visited first, so repeated
runs on identical input and flags give byte-identical output. -/
theorem c3_determinism (files : List FileData) (min_lines : Nat) (ig : Bool)
    (hmin : 1 ≤ min_lines) (hnl : NoNewlines files) (hnd : NodupPaths files)
    (s1 s2 : List (Str × List Occurrence))
    (hp1 : s1.Perm (seedsOf files min_lines ig))
    (hp2 : s2.Perm (seedsOf files min_lines ig)) :
    detect_duplicates_ord files min_lines ig s1
      = detect_duplicates_ord files min_lines ig s2
    ∧ detect_duplicates_ord files min_lines ig s1
      = detect_duplicates files min_lines ig := by
  refine ⟨detect_ord_eq files min_lines ig hmin hnl hnd hp1 hp2, ?_⟩
  exact detect_ord_eq files min_lines ig hmin hnl hnd hp1 (List.Perm.refl _)

/-- Witness for C3 at a concrete input: visiting the Scenario A seed index
in reversed order produces exactly the canonical pipeline output. -/
theorem c3_determinism_witness :
    (seedsOf egFiles 2 false).reverse.Perm (seedsOf egFiles 2 false)
    ∧ detect_duplicates_ord egFiles 2 false (seedsOf egFiles 2 false).reverse
        = detect_duplicates egFiles 2 false := by
  refine ⟨List.reverse_perm _, ?_⟩
  exact (c3_determinism egFiles 2 false (by omega)
    (by unfold NoNewlines; decide) (by unfold NodupPaths; decide)
    ((seedsOf egFiles 2 false).reverse) (seedsOf egFiles 2 false)
    (List.reverse_perm _) (List.Perm.refl _)).2

/-- Witness for C8's amended theorem: concrete instantiations of the
hypothesis-bearing conjuncts. -/
theorem c8_glob_translation_witness :
    to_regex_from_glob_suffix ('a' :: []) = GAtom.lit 'a' :: to_regex_from_glob_suffix []
    ∧ to_regex_from_glob_suffix ('*' :: []) = GAtom.starNoSlash :: to_regex_from_glob_suffix []
    ∧ to_regex_from_glob_suffix ('*' :: '*' :: [])
        = GAtom.starDot :: to_regex_from_glob_suffix (('*' :: []).dropWhile (fun x => x == '*')) :=
  ⟨c8_glob_translation.2.1 'a' [] (by decide) (by decide),
   c8_glob_translation.2.2.2.1 [] (by decide),
   c8_glob_translation.2.2.2.2.1 ('*' :: []) (by decide)⟩

end Dryfinder
